import Mathlib

/-!
Verification of the autocorrect repository (trie, BK-tree, Levenshtein
automaton).  Strings are modelled as `List Char`.  Python's `levenshtein`
(src/helpers.py) is embedded as the same dynamic program over a row of
naturals; a recursive reference function `levRec` and an inductive
edit-script predicate `Edits` are used to establish its metric properties.
-/

set_option maxHeartbeats 1000000

namespace Autocorrect

/-- Substitution cost used by the dynamic program: `(s1[i] != s2[j])` in
src/helpers.py, an int that is 0 on equal characters and 1 otherwise. -/
def chCost (a b : Char) : Nat := if a = b then 0 else 1

/-- Reference recursive definition of the Levenshtein distance. -/
def levRec (xs ys : List Char) : Nat :=
  match xs, ys with
  | [], ys => ys.length
  | _ :: xs', [] => xs'.length + 1
  | x :: xs', y :: ys' =>
      min (levRec xs' (y :: ys') + 1)
        (min (levRec (x :: xs') ys' + 1) (levRec xs' ys' + chCost x y))
termination_by (xs.length, ys.length)

theorem levRec_nil (ys : List Char) : levRec [] ys = ys.length := by
  simp [levRec]

theorem levRec_nil_right (xs : List Char) : levRec xs [] = xs.length := by
  cases xs <;> simp [levRec]

theorem levRec_cons_cons (x y : Char) (xs ys : List Char) :
    levRec (x :: xs) (y :: ys) =
      min (levRec xs (y :: ys) + 1)
        (min (levRec (x :: xs) ys + 1) (levRec xs ys + chCost x y)) := by
  rw [levRec]

/-- Edit scripts: `Edits xs ys n` says `ys` is obtained from `xs` using `n`
single-character insertions, deletions and substitutions. -/
inductive Edits : List Char → List Char → Nat → Prop where
  | nil : Edits [] [] 0
  | copy (a : Char) {xs ys : List Char} {n : Nat} :
      Edits xs ys n → Edits (a :: xs) (a :: ys) n
  | subst (a b : Char) {xs ys : List Char} {n : Nat} :
      Edits xs ys n → Edits (a :: xs) (b :: ys) (n + 1)
  | del (a : Char) {xs ys : List Char} {n : Nat} :
      Edits xs ys n → Edits (a :: xs) ys (n + 1)
  | ins (b : Char) {xs ys : List Char} {n : Nat} :
      Edits xs ys n → Edits xs (b :: ys) (n + 1)

theorem edits_refl (xs : List Char) : Edits xs xs 0 := by
  induction xs with
  | nil => exact Edits.nil
  | cons a xs ih => exact Edits.copy a ih

theorem edits_nil_left (ys : List Char) : Edits [] ys ys.length := by
  induction ys with
  | nil => exact Edits.nil
  | cons b ys ih => exact Edits.ins b ih

theorem edits_nil_right (xs : List Char) : Edits xs [] xs.length := by
  induction xs with
  | nil => exact Edits.nil
  | cons a xs ih => exact Edits.del a ih

theorem edits_symm {xs ys : List Char} {n : Nat} (h : Edits xs ys n) :
    Edits ys xs n := by
  induction h with
  | nil => exact Edits.nil
  | copy a _ ih => exact Edits.copy a ih
  | subst a b _ ih => exact Edits.subst b a ih
  | del a _ ih => exact Edits.ins a ih
  | ins b _ ih => exact Edits.del b ih

theorem edits_prepend {xs ys : List Char} {n : Nat} (w : List Char)
    (h : Edits xs ys n) : Edits xs (w ++ ys) (n + w.length) := by
  induction w with
  | nil => simpa using h
  | cons b w ih =>
      have h2 := Edits.ins b ih
      have harith : n + (b :: w).length = n + w.length + 1 := by
        simp only [List.length_cons]; omega
      rw [harith]
      exact h2

theorem levRec_le_of_edits {xs ys : List Char} {n : Nat}
    (h : Edits xs ys n) : levRec xs ys ≤ n := by
  induction h with
  | nil => simp [levRec]
  | copy a h ih =>
      rw [levRec_cons_cons]
      have hc : chCost a a = 0 := by simp [chCost]
      omega
  | subst a b h ih =>
      rw [levRec_cons_cons]
      have : chCost a b ≤ 1 := by unfold chCost; split <;> omega
      omega
  | del a h ih =>
      rename_i xs' ys' n'
      cases ys' with
      | nil =>
          rw [levRec_nil_right] at ih ⊢
          simp only [List.length_cons]; omega
      | cons y ys'' =>
          rw [levRec_cons_cons]
          omega
  | ins b h ih =>
      rename_i xs' ys' n'
      cases xs' with
      | nil =>
          rw [levRec_nil] at ih ⊢
          simp only [List.length_cons]; omega
      | cons x xs'' =>
          rw [levRec_cons_cons]
          omega

theorem edits_of_levRec (xs ys : List Char) : Edits xs ys (levRec xs ys) := by
  have key : ∀ (fuel : Nat) (xs ys : List Char), xs.length + ys.length ≤ fuel →
      Edits xs ys (levRec xs ys) := by
    intro fuel
    induction fuel with
    | zero =>
        intro xs ys hfuel
        have hx : xs = [] := by cases xs <;> simp_all
        have hy : ys = [] := by cases ys <;> simp_all
        subst hx; subst hy
        simpa [levRec] using Edits.nil
    | succ fuel ih =>
        intro xs ys hfuel
        cases xs with
        | nil => rw [levRec_nil]; exact edits_nil_left ys
        | cons x xs' =>
            cases ys with
            | nil => rw [levRec_nil_right]; exact edits_nil_right (x :: xs')
            | cons y ys' =>
                rw [levRec_cons_cons]
                have h1 : Edits xs' (y :: ys') (levRec xs' (y :: ys')) :=
                  ih xs' (y :: ys') (by simp at hfuel ⊢; omega)
                have h2 : Edits (x :: xs') ys' (levRec (x :: xs') ys') :=
                  ih (x :: xs') ys' (by simp at hfuel ⊢; omega)
                have h3 : Edits xs' ys' (levRec xs' ys') :=
                  ih xs' ys' (by simp at hfuel ⊢; omega)
                rcases Nat.le_total (levRec xs' (y :: ys') + 1)
                    (min (levRec (x :: xs') ys' + 1) (levRec xs' ys' + chCost x y)) with hle1 | hge1
                · rw [min_eq_left hle1]
                  exact Edits.del x h1
                · rw [min_eq_right hge1]
                  rcases Nat.le_total (levRec (x :: xs') ys' + 1)
                      (levRec xs' ys' + chCost x y) with hle | hge
                  · rw [min_eq_left hle]
                    exact Edits.ins y h2
                  · rw [min_eq_right hge]
                    by_cases hxy : x = y
                    · subst hxy
                      simpa [chCost] using Edits.copy x h3
                    · simpa [chCost, hxy] using Edits.subst x y h3
  exact key (xs.length + ys.length) xs ys (Nat.le_refl _)

/-- Composition of edit scripts, proved by strong induction on a combined
size bound so that all the nested case splits are available. -/
theorem edits_trans_aux :
    ∀ (fuel : Nat) {m n : Nat} (a b c : List Char),
      m + n + a.length + b.length + c.length ≤ fuel →
      Edits a b m → Edits b c n → ∃ k, Edits a c k ∧ k ≤ m + n := by
  intro fuel
  induction fuel with
  | zero =>
      intro m n a b c hle h1 h2
      have ha : a = [] := by
        have : a.length = 0 := by omega
        simpa using this
      have hc : c = [] := by
        have : c.length = 0 := by omega
        simpa using this
      subst ha; subst hc
      exact ⟨0, Edits.nil, Nat.zero_le _⟩
  | succ fuel ih =>
      intro m n a b c hle h1 h2
      cases h1 with
      | nil =>
          exact ⟨n, h2, by omega⟩
      | del a0 h1' =>
          obtain ⟨k, hk, hkle⟩ := ih _ _ _ (by simp at hle ⊢; omega) h1' h2
          exact ⟨k + 1, Edits.del a0 hk, by omega⟩
      | copy z h1' =>
          cases h2 with
          | copy _ h2' =>
              obtain ⟨k, hk, hkle⟩ := ih _ _ _ (by simp at hle ⊢; omega) h1' h2'
              exact ⟨k, Edits.copy z hk, by omega⟩
          | subst _ w h2' =>
              obtain ⟨k, hk, hkle⟩ := ih _ _ _ (by simp at hle ⊢; omega) h1' h2'
              exact ⟨k + 1, Edits.subst z w hk, by omega⟩
          | del _ h2' =>
              obtain ⟨k, hk, hkle⟩ := ih _ _ _ (by simp at hle ⊢; omega) h1' h2'
              exact ⟨k + 1, Edits.del z hk, by omega⟩
          | ins w h2' =>
              obtain ⟨k, hk, hkle⟩ :=
                ih _ _ _ (by simp at hle ⊢; omega) (Edits.copy z h1') h2'
              exact ⟨k + 1, Edits.ins w hk, by omega⟩
      | subst z u h1' =>
          cases h2 with
          | copy _ h2' =>
              obtain ⟨k, hk, hkle⟩ := ih _ _ _ (by simp at hle ⊢; omega) h1' h2'
              exact ⟨k + 1, Edits.subst z u hk, by omega⟩
          | subst _ w h2' =>
              obtain ⟨k, hk, hkle⟩ := ih _ _ _ (by simp at hle ⊢; omega) h1' h2'
              exact ⟨k + 1, Edits.subst z w hk, by omega⟩
          | del _ h2' =>
              obtain ⟨k, hk, hkle⟩ := ih _ _ _ (by simp at hle ⊢; omega) h1' h2'
              exact ⟨k + 1, Edits.del z hk, by omega⟩
          | ins w h2' =>
              obtain ⟨k, hk, hkle⟩ :=
                ih _ _ _ (by simp at hle ⊢; omega) (Edits.subst z u h1') h2'
              exact ⟨k + 1, Edits.ins w hk, by omega⟩
      | ins u h1' =>
          cases h2 with
          | copy _ h2' =>
              obtain ⟨k, hk, hkle⟩ := ih _ _ _ (by simp at hle ⊢; omega) h1' h2'
              exact ⟨k + 1, Edits.ins u hk, by omega⟩
          | subst _ w h2' =>
              obtain ⟨k, hk, hkle⟩ := ih _ _ _ (by simp at hle ⊢; omega) h1' h2'
              exact ⟨k + 1, Edits.ins w hk, by omega⟩
          | del _ h2' =>
              obtain ⟨k, hk, hkle⟩ := ih _ _ _ (by simp at hle ⊢; omega) h1' h2'
              exact ⟨k, hk, by omega⟩
          | ins w h2' =>
              obtain ⟨k, hk, hkle⟩ :=
                ih _ _ _ (by simp at hle ⊢; omega) (Edits.ins u h1') h2'
              exact ⟨k + 1, Edits.ins w hk, by omega⟩

theorem edits_trans {m n : Nat} {a b c : List Char}
    (h1 : Edits a b m) (h2 : Edits b c n) : ∃ k, Edits a c k ∧ k ≤ m + n :=
  edits_trans_aux (m + n + a.length + b.length + c.length) a b c (Nat.le_refl _) h1 h2

theorem levRec_triangle (a b c : List Char) :
    levRec a c ≤ levRec a b + levRec b c := by
  obtain ⟨k, hk, hkle⟩ := edits_trans (edits_of_levRec a b) (edits_of_levRec b c)
  exact Nat.le_trans (levRec_le_of_edits hk) hkle

theorem levRec_symm (xs ys : List Char) : levRec xs ys = levRec ys xs :=
  Nat.le_antisymm (levRec_le_of_edits (edits_symm (edits_of_levRec ys xs)))
    (levRec_le_of_edits (edits_symm (edits_of_levRec xs ys)))

theorem edits_zero_eq {xs ys : List Char} (h : Edits xs ys 0) : xs = ys := by
  generalize hn : 0 = n at h
  induction h with
  | nil => rfl
  | copy a _ ih => rw [ih hn]
  | subst a b _ _ => omega
  | del a _ _ => omega
  | ins b _ _ => omega

theorem levRec_self (xs : List Char) : levRec xs xs = 0 :=
  Nat.le_antisymm (levRec_le_of_edits (edits_refl xs)) (Nat.zero_le _)

theorem levRec_eq_zero_iff (xs ys : List Char) : levRec xs ys = 0 ↔ xs = ys := by
  constructor
  · intro h
    exact edits_zero_eq (h ▸ edits_of_levRec xs ys)
  · rintro rfl
    exact levRec_self xs

theorem edits_length_bound {xs ys : List Char} {n : Nat} (h : Edits xs ys n) :
    xs.length ≤ ys.length + n ∧ ys.length ≤ xs.length + n := by
  induction h with
  | nil => simp
  | copy a _ ih => simp only [List.length_cons]; omega
  | subst a b _ ih => simp only [List.length_cons]; omega
  | del a _ ih => simp only [List.length_cons]; omega
  | ins b _ ih => simp only [List.length_cons]; omega

theorem levRec_length_bound (xs ys : List Char) :
    xs.length ≤ ys.length + levRec xs ys ∧ ys.length ≤ xs.length + levRec xs ys :=
  edits_length_bound (edits_of_levRec xs ys)

theorem levRec_prepend_le (u w v : List Char) :
    levRec u (w ++ v) ≤ levRec u v + w.length :=
  levRec_le_of_edits (edits_prepend w (edits_of_levRec u v))

/-- Levenshtein distance with both strings reversed; the dynamic program of
src/helpers.py consumes `s1` left to right, so its row invariant is naturally
phrased with characters appended on the right, which `levL` turns into plain
`levRec` recursion on the reversed strings. -/
def levL (xs ys : List Char) : Nat := levRec xs.reverse ys.reverse

theorem levL_nil_right (p : List Char) : levL p [] = p.length := by
  simp [levL, levRec_nil_right]

theorem levL_nil_left (s : List Char) : levL [] s = s.length := by
  simp [levL, levRec_nil]

theorem levL_snoc_snoc (p t : List Char) (x y : Char) :
    levL (p ++ [x]) (t ++ [y]) =
      min (levL p (t ++ [y]) + 1)
        (min (levL (p ++ [x]) t + 1) (levL p t + chCost x y)) := by
  have h1 : (p ++ [x]).reverse = x :: p.reverse := by simp
  have h2 : (t ++ [y]).reverse = y :: t.reverse := by simp
  simp only [levL, h1, h2]
  exact levRec_cons_cons x y p.reverse t.reverse

/-- One execution of the backward inner loop of `levenshtein` in
src/helpers.py: `dp[d] = min(dp[d] + 1, dp[d - 1] + (s1[i] != s2[j]))`,
computed from the old row (the loop runs backwards, so `dp[d - 1]` still
holds the previous row's value, threaded here as `prev`). -/
def levSub (c : Char) (prev : Nat) : List Nat → List Char → List Nat
  | r :: rs, y :: ys => min (r + 1) (prev + chCost c y) :: levSub c r rs ys
  | _, _ => []

/-- The forward pass of `levenshtein` in src/helpers.py:
`dp[d] = min(dp[d], dp[d - 1] + 1)` for d = 1 .. len(dp) - 1. -/
def levMins (prev : Nat) : List Nat → List Nat
  | [] => []
  | r :: rs => min r (prev + 1) :: levMins (min r (prev + 1)) rs

/-- The outer loop of `levenshtein` in src/helpers.py over the characters of
`s1`; `i` is the loop index, used for `dp[0] = i + 1`. -/
def levLoop (s2 : List Char) (dp : List Nat) (i : Nat) : List Char → List Nat
  | [] => dp
  | c :: cs =>
      match dp with
      | [] => levLoop s2 [] (i + 1) cs
      | _ :: rest => levLoop s2 ((i + 1) :: levMins (i + 1) (levSub c (i) rest s2)) (i + 1) cs

/-- The function `levenshtein` of src/helpers.py: single-row dynamic
programming over `dp = list(range(0, len(s2) + 1))`, returning `dp[-1]`. -/
def levenshtein (s1 s2 : List Char) : Nat :=
  (levLoop s2 (List.range (s2.length + 1)) 0 s1).getLastD 0

/-- Specification of the tail of the dp row: entry for each prefix of the
remaining query `q`, extending the already processed prefix `t`. -/
def rowTail (p t : List Char) : List Char → List Nat
  | [] => []
  | y :: q' => levL p (t ++ [y]) :: rowTail p (t ++ [y]) q'

/-- Specification of the whole dp row after processing `p`. -/
def rowFor (p q : List Char) : List Nat := levL p [] :: rowTail p [] q

theorem rowTail_nil_eq_range' (q : List Char) :
    ∀ t : List Char, rowTail [] t q = List.range' (t.length + 1) q.length := by
  induction q with
  | nil => intro t; simp [rowTail]
  | cons y q' ih =>
      intro t
      rw [rowTail, List.length_cons, List.range'_succ, levL_nil_left, ih (t ++ [y])]
      simp

theorem row_init (q : List Char) : List.range (q.length + 1) = rowFor [] q := by
  rw [rowFor, List.range_eq_range', List.range'_succ, rowTail_nil_eq_range' q [],
    levL_nil_left]
  simp


theorem rowStep (p : List Char) (c : Char) :
    ∀ (q t : List Char),
      levMins (levL (p ++ [c]) t) (levSub c (levL p t) (rowTail p t q) q) =
        rowTail (p ++ [c]) t q := by
  intro q
  induction q with
  | nil => intro t; simp [rowTail, levSub, levMins]
  | cons y q' ih =>
      intro t
      rw [rowTail, rowTail, levSub, levMins]
      have hhead :
          min (min (levL p (t ++ [y]) + 1) (levL p t + chCost c y))
              (levL (p ++ [c]) t + 1) = levL (p ++ [c]) (t ++ [y]) := by
        rw [levL_snoc_snoc]
        omega
      rw [hhead, ih (t ++ [y])]

theorem levLoop_spec (q : List Char) :
    ∀ (rem p : List Char), levLoop q (rowFor p q) p.length rem = rowFor (p ++ rem) q := by
  intro rem
  induction rem with
  | nil => intro p; simp [levLoop]
  | cons c cs ih =>
      intro p
      rw [rowFor, levLoop]
      have hlen : p.length + 1 = levL (p ++ [c]) [] := by
        rw [levL_nil_right]; simp
      have hprev : levMins (p.length + 1) (levSub c p.length (rowTail p [] q) q) =
          rowTail (p ++ [c]) [] q := by
        rw [show (p.length : Nat) = levL p [] from (levL_nil_right p).symm] at *
        rw [hlen]
        exact rowStep p c q []
      rw [hprev, hlen]
      have := ih (p ++ [c])
      rw [show (p ++ [c]).length = p.length + 1 by simp] at this
      rw [show levL (p ++ [c]) [] :: rowTail (p ++ [c]) [] q = rowFor (p ++ [c]) q from rfl]
      rw [← hlen, this]
      simp

theorem rowTail_getLastD (p : List Char) :
    ∀ (q t : List Char), (rowTail p t q).getLastD (levL p t) = levL p (t ++ q) := by
  intro q
  induction q with
  | nil => intro t; simp [rowTail]
  | cons y q' ih =>
      intro t
      rw [rowTail, List.getLastD_cons, ih (t ++ [y])]
      simp

theorem levenshtein_eq_levL (s1 s2 : List Char) : levenshtein s1 s2 = levL s1 s2 := by
  rw [levenshtein, row_init]
  have h := levLoop_spec s2 s1 []
  simp only [List.length_nil, List.nil_append] at h
  rw [h, rowFor, List.getLastD_cons]
  have := rowTail_getLastD s1 s2 []
  simpa using this

/-- C5: the levenshtein function of src/helpers.py is a metric on strings:
symmetric, zero exactly on equal strings, satisfies the triangle inequality,
and an empty argument gives the length of the other string. -/
theorem levenshtein_is_metric (s1 s2 s3 : List Char) :
    levenshtein s1 s2 = levenshtein s2 s1 ∧
    (levenshtein s1 s2 = 0 ↔ s1 = s2) ∧
    levenshtein s1 s3 ≤ levenshtein s1 s2 + levenshtein s2 s3 ∧
    levenshtein [] s2 = s2.length ∧
    levenshtein s2 [] = s2.length := by
  refine ⟨?_, ?_, ?_, ?_, ?_⟩
  · rw [levenshtein_eq_levL, levenshtein_eq_levL, levL, levL, levRec_symm]
  · rw [levenshtein_eq_levL, levL, levRec_eq_zero_iff]
    constructor
    · intro h; exact List.reverse_injective h
    · rintro rfl; rfl
  · rw [levenshtein_eq_levL, levenshtein_eq_levL, levenshtein_eq_levL]
    exact levRec_triangle s1.reverse s2.reverse s3.reverse
  · rw [levenshtein_eq_levL, levL]
    simp [levRec_nil]
  · rw [levenshtein_eq_levL, levL]
    simp [levRec_nil_right]

/-! Trie (src/trie.py).  Nodes carry an optional letter (the root has none),
an insertion-ordered children map modelled as an association forest, and an
`is_word` flag.  Python's `str.lower()` is modelled by `Char.toLower`, which
agrees with it on the ASCII fragment treated by this embedding. -/

/-- Characters of a string case-folded as by `word.lower()` in src/trie.py. -/
def lowerStr (s : List Char) : List Char := s.map Char.toLower

/-- ASCII uppercase letter test (code points 65-90). -/
def isUp (c : Char) : Prop := 65 ≤ c.toNat ∧ c.toNat ≤ 90

instance (c : Char) : Decidable (isUp c) := by unfold isUp; infer_instance

theorem toLower_eq_self {c : Char} (h : ¬ isUp c) : Char.toLower c = c := by
  rw [Char.toLower, if_neg]
  intro hc
  exact h ⟨hc.1, hc.2⟩

theorem toNat_toLower_of_up {c : Char} (h : isUp c) :
    (Char.toLower c).toNat = c.toNat + 32 := by
  obtain ⟨h1, h2⟩ := h
  rw [Char.toLower, if_pos ⟨h1, h2⟩, Char.ofNat,
    dif_pos (Or.inl (by omega : c.toNat + 32 < 55296))]
  rfl

theorem not_isUp_toLower (c : Char) : ¬ isUp (Char.toLower c) := by
  by_cases h : isUp c
  · have heq := toNat_toLower_of_up h
    obtain ⟨h1, h2⟩ := h
    unfold isUp
    omega
  · rw [toLower_eq_self h]
    exact h

mutual
inductive TrieNode where
  | mk : Option Char → TrieForest → Bool → TrieNode
inductive TrieForest where
  | nil : TrieForest
  | cons : Char → TrieNode → TrieForest → TrieForest
end

def TrieNode.letter : TrieNode → Option Char
  | TrieNode.mk l _ _ => l

def TrieNode.children : TrieNode → TrieForest
  | TrieNode.mk _ f _ => f

def TrieNode.is_word : TrieNode → Bool
  | TrieNode.mk _ _ w => w

/-- Python's `node.letter` where the node is known to be a non-root node (so
the letter is present); the fallback is never reached on tries built by
`insert`. -/
def TrieNode.letterD (n : TrieNode) : Char := n.letter.getD 'a'

/-- Lookup `children[letter]` in the insertion-ordered children map. -/
def findChild : TrieForest → Char → Option TrieNode
  | TrieForest.nil, _ => none
  | TrieForest.cons k n f, c => if k = c then some n else findChild f c

/-- The assignment `children[letter] = node`: replace in place if the key is
present, append otherwise (Python dicts keep insertion order). -/
def setChild : TrieForest → Char → TrieNode → TrieForest
  | TrieForest.nil, c, n => TrieForest.cons c n TrieForest.nil
  | TrieForest.cons k m f, c, n =>
      if k = c then TrieForest.cons k n f else TrieForest.cons k m (setChild f c n)

/-- The walk/create loop of `Trie.insert` in src/trie.py, on the already
case-folded word: one node per character, marking `is_word` on the node of
the last character. -/
def insertW : TrieNode → List Char → TrieNode
  | n, [] => TrieNode.mk n.letter n.children true
  | n, c :: cs =>
      TrieNode.mk n.letter
        (setChild n.children c
          (insertW ((findChild n.children c).getD (TrieNode.mk (some c) TrieForest.nil false)) cs))
        n.is_word

/-- A trie as in src/trie.py: a root node that carries no letter. -/
structure Trie where
  root : TrieNode

/-- Trie.insert from src/trie.py.  The word is case-folded; for the empty
word the loop body never runs, so nothing changes. -/
def Trie.insert (t : Trie) (word : List Char) : Trie :=
  match lowerStr word with
  | [] => t
  | c :: cs => ⟨insertW t.root (c :: cs)⟩

/-- Walk from a node along the characters of a string, `None` as soon as a
child edge is missing. -/
def walkNode : TrieNode → List Char → Option TrieNode
  | n, [] => some n
  | n, c :: cs =>
      match findChild n.children c with
      | none => none
      | some ch => walkNode ch cs

/-- Trie.lookup_word from src/trie.py: case-folded walk, then `is_word`. -/
def Trie.lookup_word (t : Trie) (s : List Char) : Bool :=
  match walkNode t.root (lowerStr s) with
  | none => false
  | some n => n.is_word

mutual
def allWordsN : TrieNode → List Char → List (List Char)
  | TrieNode.mk _ f w, acc => (if w then [acc] else []) ++ allWordsF f acc
def allWordsF : TrieForest → List Char → List (List Char)
  | TrieForest.nil, _ => []
  | TrieForest.cons k n f, acc => allWordsN n (acc ++ [k]) ++ allWordsF f acc
end

/-- Trie.all_words from src/trie.py (via `all_words_helper`). -/
def Trie.all_words (t : Trie) : List (List Char) := allWordsN t.root []

/-- The while loop of `Trie.complete_from_prefix` in src/trie.py: starting
from the prefix node, repeatedly descend into the first child, accumulating
`node.letter`, until a word node is reached (`some suffix`) or a dead end is
hit (`none`, the Python code then returns the empty string). -/
def completeSuffix : TrieNode → Option (List Char)
  | TrieNode.mk _ f w =>
      if w then some []
      else
        match f with
        | TrieForest.nil => none
        | TrieForest.cons _ n _ =>
            match completeSuffix n with
            | none => none
            | some suf => some (n.letterD :: suf)

/-- Trie.complete_from_prefix from src/trie.py (the prefix is not
case-folded). -/
def Trie.completeFrom (t : Trie) (pre : List Char) : List Char :=
  match walkNode t.root pre with
  | none => []
  | some n =>
      match completeSuffix n with
      | none => []
      | some suf => pre ++ suf

mutual
def countN : TrieNode → Nat
  | TrieNode.mk _ f _ => 1 + countF f
def countF : TrieForest → Nat
  | TrieForest.nil => 0
  | TrieForest.cons _ n f => countN n + countF f
end

/-- Queue entries pushed for all children of a node in the BFS of
`Trie.get_suggestions`: the suffix extended by the edge key, as in
`queue.append((suf + each, node.children[each]))`. -/
def forestEntries (suf : List Char) : TrieForest → List (List Char × TrieNode)
  | TrieForest.nil => []
  | TrieForest.cons k n f => (suf ++ [k], n) :: forestEntries suf f

/-- The BFS loop of `Trie.get_suggestions` in src/trie.py.  The fuel is only
a termination device: the caller passes the node count of the subtree, which
bounds the number of loop iterations, so the fuel never runs out. -/
def bfs (w : List Char) (lim : Int) : Nat → List (List Char × TrieNode) → List (List Char) → List (List Char)
  | 0, _, sug => sug
  | _ + 1, [], sug => sug
  | fuel + 1, (suf, n) :: rest, sug =>
      if (sug.length : Int) < lim then
        bfs w lim fuel (rest ++ forestEntries suf n.children)
          (sug ++ if n.is_word then [w ++ suf] else [])
      else sug

/-- Trie.get_suggestions from src/trie.py: walk to the prefix node (no case
folding), then BFS with the result-count limit. -/
def Trie.get_suggestions (t : Trie) (word : List Char) (lim : Int) : List (List Char) :=
  match walkNode t.root word with
  | none => []
  | some n => bfs word lim (countN n) [([], n)] []

/-- The empty trie: a root node with no letter, no children, no word mark. -/
def Trie.empty : Trie := ⟨TrieNode.mk none TrieForest.nil false⟩

/-- A trie built by inserting a list of words into the empty trie. -/
def buildTrie (ws : List (List Char)) : Trie := ws.foldl Trie.insert Trie.empty

theorem findChild_setChild_self : ∀ (f : TrieForest) (c : Char) (n : TrieNode),
    findChild (setChild f c n) c = some n
  | TrieForest.nil, c, n => by simp [setChild, findChild]
  | TrieForest.cons k m f, c, n => by
      by_cases h : k = c
      · subst h; simp [setChild, findChild]
      · simp [setChild, findChild, h, findChild_setChild_self f c n]

theorem findChild_setChild_ne : ∀ (f : TrieForest) (c d : Char) (n : TrieNode),
    d ≠ c → findChild (setChild f c n) d = findChild f d
  | TrieForest.nil, c, d, n, h => by
      have hcd : ¬ (c = d) := fun hh => h hh.symm
      simp only [setChild, findChild, if_neg hcd]
  | TrieForest.cons k m f, c, d, n, h => by
      simp only [setChild]
      by_cases hk : k = c
      · subst hk
        have hkd : ¬ (k = d) := fun hh => h hh.symm
        rw [if_pos rfl]
        simp only [findChild, if_neg hkd]
      · rw [if_neg hk]
        simp only [findChild]
        by_cases hkd : k = d
        · rw [if_pos hkd, if_pos hkd]
        · rw [if_neg hkd, if_neg hkd, findChild_setChild_ne f c d n h]

theorem setChild_setChild : ∀ (f : TrieForest) (c : Char) (n m : TrieNode),
    setChild (setChild f c n) c m = setChild f c m
  | TrieForest.nil, c, n, m => by simp [setChild]
  | TrieForest.cons k x f, c, n, m => by
      by_cases h : k = c
      · subst h; simp [setChild]
      · simp [setChild, h, setChild_setChild f c n m]

theorem insertW_letter (n : TrieNode) (w : List Char) :
    (insertW n w).letter = n.letter := by
  cases w <;> cases n <;> rfl

theorem insertW_children_nil (n : TrieNode) :
    (insertW n []).children = n.children := by
  cases n <;> rfl

theorem insertW_is_word_nil (n : TrieNode) : (insertW n []).is_word = true := by
  cases n <;> rfl

/-- Inserting the same (case-folded) word twice into a trie node is the
identity on the second insertion. -/
theorem insertW_idem (w : List Char) : ∀ n : TrieNode,
    insertW (insertW n w) w = insertW n w := by
  induction w with
  | nil =>
      intro n
      cases n with
      | mk l f b => rfl
  | cons c cs ih =>
      intro n
      cases n with
      | mk l f b =>
          show TrieNode.mk _ _ _ = _
          simp only [insertW, TrieNode.letter, TrieNode.children, TrieNode.is_word,
            findChild_setChild_self, Option.getD_some, setChild_setChild, ih]

/-- Trie.insert from src/trie.py is idempotent on the trie structure. -/
theorem trie_insert_idem (t : Trie) (w : List Char) :
    (t.insert w).insert w = t.insert w := by
  unfold Trie.insert
  cases h : lowerStr w with
  | nil => simp
  | cons c cs => simp [h, insertW_idem]

/-- Membership of a string in a trie node: walk along its characters and
read the `is_word` flag (no case folding). -/
def isWordInN (n : TrieNode) (w : List Char) : Bool :=
  match walkNode n w with
  | none => false
  | some m => m.is_word

/-- Membership of an (uncased) string among the words stored in the trie. -/
def isWordIn (t : Trie) (w : List Char) : Bool := isWordInN t.root w

theorem lookup_eq_isWordIn (t : Trie) (s : List Char) :
    t.lookup_word s = isWordIn t (lowerStr s) := rfl

theorem isWordInN_nil (n : TrieNode) : isWordInN n [] = n.is_word := rfl

theorem isWordInN_cons_none {n : TrieNode} {c : Char} (cs : List Char)
    (hf : findChild n.children c = none) : isWordInN n (c :: cs) = false := by
  simp [isWordInN, walkNode, hf]

theorem isWordInN_cons_some {n ch : TrieNode} {c : Char} (cs : List Char)
    (hf : findChild n.children c = some ch) :
    isWordInN n (c :: cs) = isWordInN ch cs := by
  simp [isWordInN, walkNode, hf]

theorem isWordInN_new (c : Char) (w : List Char) :
    isWordInN (TrieNode.mk (some c) TrieForest.nil false) w = false := by
  cases w with
  | nil => rfl
  | cons d ds => exact isWordInN_cons_none ds rfl

/-- The words stored after `insertW` are the originally stored words plus
the inserted one. -/
theorem isWordInN_insertW (u : List Char) : ∀ (n : TrieNode) (w : List Char),
    isWordInN (insertW n u) w = true ↔ (isWordInN n w = true ∨ w = u) := by
  induction u with
  | nil =>
      intro n w
      cases w with
      | nil =>
          rw [isWordInN_nil, insertW_is_word_nil]
          simp [isWordInN_nil]
      | cons d ds =>
          cases hf : findChild n.children d with
          | none =>
              rw [isWordInN_cons_none ds (by rw [insertW_children_nil]; exact hf),
                isWordInN_cons_none ds hf]
              simp
          | some ch =>
              rw [isWordInN_cons_some ds (by rw [insertW_children_nil]; exact hf),
                isWordInN_cons_some ds hf]
              simp
  | cons c cs ih =>
      intro n w
      cases n with
      | mk l f b =>
          have hins : insertW (TrieNode.mk l f b) (c :: cs) =
              TrieNode.mk l
                (setChild f c
                  (insertW ((findChild f c).getD (TrieNode.mk (some c) TrieForest.nil false)) cs))
                b := rfl
          cases w with
          | nil =>
              rw [hins, isWordInN_nil, isWordInN_nil]
              simp [TrieNode.is_word]
          | cons d ds =>
              rw [hins]
              by_cases hd : d = c
              · subst hd
                rw [isWordInN_cons_some ds
                  (show findChild (TrieNode.mk l (setChild f d _) b).children d = some _ from
                    findChild_setChild_self f d _)]
                rw [ih]
                cases hf : findChild f d with
                | none =>
                    rw [@isWordInN_cons_none (TrieNode.mk l f b) d ds hf]
                    simp only [hf, Option.getD_none, isWordInN_new]
                    simp
                | some ch =>
                    rw [@isWordInN_cons_some (TrieNode.mk l f b) ch d ds hf]
                    simp only [hf, Option.getD_some]
                    simp
              · cases hf : findChild f d with
                | none =>
                    rw [@isWordInN_cons_none
                        (TrieNode.mk l (setChild f c (insertW ((findChild f c).getD
                          (TrieNode.mk (some c) TrieForest.nil false)) cs)) b) d ds
                        ((findChild_setChild_ne f c d _ hd).trans hf),
                      @isWordInN_cons_none (TrieNode.mk l f b) d ds hf]
                    simp [hd]
                | some ch =>
                    rw [@isWordInN_cons_some
                        (TrieNode.mk l (setChild f c (insertW ((findChild f c).getD
                          (TrieNode.mk (some c) TrieForest.nil false)) cs)) b) ch d ds
                        ((findChild_setChild_ne f c d _ hd).trans hf),
                      @isWordInN_cons_some (TrieNode.mk l f b) ch d ds hf]
                    simp [hd]

theorem isWordIn_insert (t : Trie) (v w : List Char) :
    isWordIn (t.insert v) w = true ↔
      (isWordIn t w = true ∨ (v ≠ [] ∧ w = lowerStr v)) := by
  unfold Trie.insert
  cases hv : lowerStr v with
  | nil =>
      have : v = [] := by
        cases v with
        | nil => rfl
        | cons a as => simp [lowerStr] at hv
      subst this
      simp
  | cons c cs =>
      have hvne : v ≠ [] := by
        intro hcontra; subst hcontra; simp [lowerStr] at hv
      simp only [isWordIn]
      rw [isWordInN_insertW]
      simp [hvne]

/-- Characterization of the words of a built trie: exactly the case-folded
nonempty input words. -/
theorem isWordIn_buildTrie (ws : List (List Char)) (w : List Char) :
    isWordIn (buildTrie ws) w = true ↔ ∃ v ∈ ws, v ≠ [] ∧ w = lowerStr v := by
  have key : ∀ (t : Trie) (ws : List (List Char)),
      isWordIn (ws.foldl Trie.insert t) w = true ↔
        (isWordIn t w = true ∨ ∃ v ∈ ws, v ≠ [] ∧ w = lowerStr v) := by
    intro t ws
    induction ws generalizing t with
    | nil => simp
    | cons v vs ih =>
        simp only [List.foldl_cons]
        rw [ih]
        rw [isWordIn_insert]
        constructor
        · rintro ((h | ⟨hne, hw⟩) | h)
          · exact Or.inl h
          · exact Or.inr ⟨v, by simp, hne, hw⟩
          · obtain ⟨u, hu, hne, hw⟩ := h
            exact Or.inr ⟨u, by simp [hu], hne, hw⟩
        · rintro (h | ⟨u, hu, hne, hw⟩)
          · exact Or.inl (Or.inl h)
          · rcases List.mem_cons.mp hu with rfl | hu'
            · exact Or.inl (Or.inr ⟨hne, hw⟩)
            · exact Or.inr ⟨u, hu', hne, hw⟩
  rw [buildTrie, key]
  have hempty : isWordIn Trie.empty w = false := by
    cases w with
    | nil => rfl
    | cons c cs => exact isWordInN_cons_none cs rfl
  simp [hempty]

def hasKeyT : TrieForest → Char → Bool
  | TrieForest.nil, _ => false
  | TrieForest.cons k _ f, c => k = c || hasKeyT f c

mutual
def goodN : TrieNode → Bool
  | TrieNode.mk _ f _ => goodF f
def goodF : TrieForest → Bool
  | TrieForest.nil => true
  | TrieForest.cons k n f =>
      !(decide (isUp k)) && (n.letter == some k) && !(hasKeyT f k) && goodN n && goodF f
end

theorem hasKeyT_of_findChild : ∀ (f : TrieForest) (c : Char) (ch : TrieNode),
    findChild f c = some ch → hasKeyT f c = true
  | TrieForest.nil, c, ch, h => by simp [findChild] at h
  | TrieForest.cons k n f, c, ch, h => by
      by_cases hk : k = c
      · simp [hasKeyT, hk]
      · simp only [findChild, if_neg hk] at h
        simp [hasKeyT, hk, hasKeyT_of_findChild f c ch h]

theorem findChild_good : ∀ (f : TrieForest) (c : Char) (ch : TrieNode),
    goodF f = true → findChild f c = some ch →
    ¬ isUp c ∧ ch.letter = some c ∧ goodN ch = true
  | TrieForest.nil, c, ch, _, h => by simp [findChild] at h
  | TrieForest.cons k n f, c, ch, hg, h => by
      simp only [goodF, Bool.and_eq_true, Bool.not_eq_true', beq_iff_eq] at hg
      obtain ⟨⟨⟨⟨hup, hlet⟩, hkey⟩, hgn⟩, hgf⟩ := hg
      by_cases hk : k = c
      · subst hk
        have h' : n = ch := by simpa [findChild] using h
        subst h'
        refine ⟨?_, hlet, hgn⟩
        simpa using hup
      · simp only [findChild, if_neg hk] at h
        exact findChild_good f c ch hgf h

theorem hasKeyT_setChild : ∀ (f : TrieForest) (c d : Char) (m : TrieNode),
    hasKeyT (setChild f c m) d = (hasKeyT f d || d == c)
  | TrieForest.nil, c, d, m => by
      by_cases h : c = d
      · subst h; simp [setChild, hasKeyT]
      · have h2 : ¬ d = c := fun hh => h hh.symm
        simp [setChild, hasKeyT, h, h2]
  | TrieForest.cons k n f, c, d, m => by
      by_cases hk : k = c
      · subst hk
        simp only [setChild, if_pos rfl, hasKeyT]
        by_cases hkd : k = d
        · subst hkd; simp
        · have h2 : ¬ d = k := fun hh => hkd hh.symm
          simp [hkd, h2]
      · simp only [setChild, if_neg hk, hasKeyT, hasKeyT_setChild f c d m]
        simp [Bool.or_assoc]

theorem goodF_setChild : ∀ (f : TrieForest) (c : Char) (m : TrieNode),
    goodF f = true → ¬ isUp c → m.letter = some c → goodN m = true →
    goodF (setChild f c m) = true
  | TrieForest.nil, c, m, _, hup, hlet, hgm => by
      simp [setChild, goodF, hasKeyT, hup, hlet, hgm]
  | TrieForest.cons k n f, c, m, hg, hup, hlet, hgm => by
      simp only [goodF, Bool.and_eq_true, Bool.not_eq_true', beq_iff_eq] at hg
      obtain ⟨⟨⟨⟨hupk, hletn⟩, hkey⟩, hgn⟩, hgf⟩ := hg
      by_cases hk : k = c
      · subst hk
        simp only [setChild, if_pos rfl, goodF]
        simp [hupk, hlet, hkey, hgm, hgf]
      · simp only [setChild, if_neg hk, goodF]
        have h1 : hasKeyT (setChild f c m) k = false := by
          rw [hasKeyT_setChild]
          have hkc : (k == c) = false := by simp [hk]
          simp [hkey, hkc]
        simp [hupk, hletn, h1, hgn, goodF_setChild f c m hgf hup hlet hgm]

theorem goodN_mk (l : Option Char) (f : TrieForest) (b : Bool) :
    goodN (TrieNode.mk l f b) = goodF f := rfl

theorem goodN_insertW (u : List Char) : ∀ (n : TrieNode),
    goodN n = true → (∀ c ∈ u, ¬ isUp c) → goodN (insertW n u) = true := by
  induction u with
  | nil =>
      intro n hg _
      cases n with
      | mk l f b => simpa [insertW, goodN_mk, TrieNode.letter, TrieNode.children] using hg
  | cons c cs ih =>
      intro n hg hup
      cases n with
      | mk l f b =>
          rw [show insertW (TrieNode.mk l f b) (c :: cs) =
              TrieNode.mk l
                (setChild f c
                  (insertW ((findChild f c).getD (TrieNode.mk (some c) TrieForest.nil false)) cs))
                b from rfl]
          rw [goodN_mk] at hg ⊢
          have hc : ¬ isUp c := hup c (by simp)
          have hcs : ∀ d ∈ cs, ¬ isUp d := fun d hd => hup d (by simp [hd])
          cases hf : findChild f c with
          | none =>
              apply goodF_setChild f c _ hg hc
              · rw [Option.getD_none, insertW_letter]; rfl
              · rw [Option.getD_none]
                exact ih _ (by rfl) hcs
          | some ch =>
              obtain ⟨_, hlet, hgch⟩ := findChild_good f c ch hg hf
              apply goodF_setChild f c _ hg hc
              · rw [Option.getD_some, insertW_letter, hlet]
              · rw [Option.getD_some]
                exact ih ch hgch hcs

theorem lowerStr_not_up (w : List Char) : ∀ c ∈ lowerStr w, ¬ isUp c := by
  intro c hc
  rw [lowerStr, List.mem_map] at hc
  obtain ⟨d, _, rfl⟩ := hc
  exact not_isUp_toLower d

theorem goodN_insert (t : Trie) (w : List Char) (hg : goodN t.root = true) :
    goodN (t.insert w).root = true := by
  unfold Trie.insert
  cases hv : lowerStr w with
  | nil => simpa
  | cons c cs =>
      show goodN (insertW t.root (c :: cs)) = true
      apply goodN_insertW _ _ hg
      rw [← hv]
      exact lowerStr_not_up w

theorem goodN_buildTrie (ws : List (List Char)) : goodN (buildTrie ws).root = true := by
  have key : ∀ (ws : List (List Char)) (t : Trie), goodN t.root = true →
      goodN (ws.foldl Trie.insert t).root = true := by
    intro ws
    induction ws with
    | nil => intro t h; simpa
    | cons v vs ih =>
        intro t h
        exact ih (t.insert v) (goodN_insert t v h)
  exact key ws Trie.empty rfl

theorem walkNode_append (a : List Char) : ∀ (n : TrieNode) (b : List Char),
    walkNode n (a ++ b) = (walkNode n a).bind (fun m => walkNode m b) := by
  induction a with
  | nil => intro n b; rfl
  | cons c cs ih =>
      intro n b
      show walkNode n (c :: (cs ++ b)) = (walkNode n (c :: cs)).bind fun m => walkNode m b
      rw [walkNode, walkNode]
      cases hf : findChild n.children c with
      | none => simp
      | some ch => simp [ih]

theorem walk_good (p : List Char) : ∀ (n m : TrieNode),
    goodN n = true → walkNode n p = some m →
    goodN m = true ∧ ∀ c ∈ p, ¬ isUp c := by
  induction p with
  | nil =>
      intro n m hg hw
      cases hw
      exact ⟨hg, by simp⟩
  | cons c cs ih =>
      intro n m hg hw
      rw [walkNode] at hw
      cases hf : findChild n.children c with
      | none => rw [hf] at hw; cases hw
      | some ch =>
          rw [hf] at hw
          obtain ⟨hup, _, hgch⟩ := findChild_good n.children c ch (by cases n; exact hg) hf
          obtain ⟨hm, hcs⟩ := ih ch m hgch hw
          refine ⟨hm, ?_⟩
          intro d hd
          rcases List.mem_cons.mp hd with rfl | hd'
          · exact hup
          · exact hcs d hd'

theorem walk_fail_up (p : List Char) : ∀ (n : TrieNode),
    goodN n = true → (∃ c ∈ p, isUp c) → walkNode n p = none := by
  induction p with
  | nil =>
      intro n _ h
      simp at h
  | cons c cs ih =>
      intro n hg h
      rw [walkNode]
      cases hf : findChild n.children c with
      | none => rfl
      | some ch =>
          obtain ⟨hup, _, hgch⟩ := findChild_good n.children c ch (by cases n; exact hg) hf
          obtain ⟨d, hd, hdu⟩ := h
          rcases List.mem_cons.mp hd with rfl | hd'
          · exact absurd hdu hup
          · exact ih ch hgch ⟨d, hd', hdu⟩

theorem lowerStr_eq_self (s : List Char) (h : ∀ c ∈ s, ¬ isUp c) :
    lowerStr s = s := by
  rw [lowerStr]
  induction s with
  | nil => rfl
  | cons c cs ih =>
      rw [List.map_cons, toLower_eq_self (h c (by simp)), ih]
      intro d hd
      exact h d (by simp [hd])

theorem forestEntries_findChild : ∀ (f : TrieForest) (suf : List Char)
    (e : List Char × TrieNode), goodF f = true → e ∈ forestEntries suf f →
    ∃ k, e.1 = suf ++ [k] ∧ findChild f k = some e.2
  | TrieForest.nil, suf, e, _, he => by simp [forestEntries] at he
  | TrieForest.cons k n f, suf, e, hg, he => by
      simp only [goodF, Bool.and_eq_true, Bool.not_eq_true', beq_iff_eq] at hg
      obtain ⟨⟨⟨⟨hup, hlet⟩, hkey⟩, hgn⟩, hgf⟩ := hg
      simp only [forestEntries, List.mem_cons] at he
      rcases he with rfl | he'
      · exact ⟨k, rfl, by simp [findChild]⟩
      · obtain ⟨k', hk', hfk'⟩ := forestEntries_findChild f suf e hgf he'
        refine ⟨k', hk', ?_⟩
        have hne : ¬ (k = k') := by
          intro hcontra
          subst hcontra
          rw [hasKeyT_of_findChild f k e.2 hfk'] at hkey
          cases hkey
        simp [findChild, hne, hfk']

theorem bfs_spec (word : List Char) (lim : Int) (n0 : TrieNode) (Q : List Char → Prop)
    (hQ : ∀ (suf : List Char) (m : TrieNode),
      walkNode n0 suf = some m → m.is_word = true → Q (word ++ suf))
    (hgood : goodN n0 = true) :
    ∀ (fuel : Nat) (queue : List (List Char × TrieNode)) (sug : List (List Char)),
      (∀ e ∈ queue, walkNode n0 e.1 = some e.2) →
      (∀ w ∈ sug, Q w) →
      (∀ w ∈ bfs word lim fuel queue sug, Q w) ∧
        ((bfs word lim fuel queue sug).length : Int) ≤ max lim (sug.length : Int) := by
  intro fuel
  induction fuel with
  | zero =>
      intro queue sug _ hs
      refine ⟨hs, ?_⟩
      rw [show bfs word lim 0 queue sug = sug from rfl]
      simp
  | succ fuel ih =>
      intro queue sug hq hs
      cases queue with
      | nil =>
          refine ⟨hs, ?_⟩
          rw [show bfs word lim (fuel + 1) [] sug = sug from rfl]
          simp
      | cons e rest =>
          obtain ⟨suf, n⟩ := e
          rw [bfs]
          by_cases hlt : (sug.length : Int) < lim
          · rw [if_pos hlt]
            have hwn : walkNode n0 suf = some n := hq (suf, n) (by simp)
            have hgn : goodN n = true := (walk_good suf n0 n hgood hwn).1
            have hq2 : ∀ e' ∈ rest ++ forestEntries suf n.children,
                walkNode n0 e'.1 = some e'.2 := by
              intro e' he'
              rcases List.mem_append.mp he' with h1 | h2
              · exact hq e' (by simp [h1])
              · obtain ⟨k, hk, hfk⟩ :=
                  forestEntries_findChild n.children suf e' (by cases n; exact hgn) h2
                rw [hk, walkNode_append, hwn]
                show walkNode n (k :: []) = some e'.2
                rw [walkNode, hfk]
                rfl
            have hs2 : ∀ w ∈ sug ++ (if n.is_word then [word ++ suf] else []), Q w := by
              intro w hw
              rcases List.mem_append.mp hw with h1 | h2
              · exact hs w h1
              · cases hword : n.is_word with
                | false => rw [hword] at h2; simp at h2
                | true =>
                    rw [hword] at h2
                    have h2' : w = word ++ suf := by simpa using h2
                    subst h2'
                    exact hQ suf n hwn hword
            obtain ⟨h1, h2⟩ := ih _ _ hq2 hs2
            refine ⟨h1, ?_⟩
            have hlen2 : (((sug ++ if n.is_word then [word ++ suf] else []).length : Int)) ≤ lim := by
              cases hword : n.is_word <;> simp [hword] <;> omega
            omega
          · rw [if_neg hlt]
            refine ⟨hs, ?_⟩
            simp [le_max_iff]


/-- C6: on a trie built by inserts, get_suggestions returns at most `lim`
words, each having the prefix as a literal prefix and recognized by
lookup_word; if the prefix has no corresponding node, the result is empty. -/
theorem trie_get_suggestions_spec (ws : List (List Char)) (pre : List Char) (lim : Int)
    (hlim : 0 ≤ lim) :
    ((Trie.get_suggestions (buildTrie ws) pre lim).length : Int) ≤ lim ∧
    (∀ w ∈ Trie.get_suggestions (buildTrie ws) pre lim, pre <+: w) ∧
    (∀ w ∈ Trie.get_suggestions (buildTrie ws) pre lim, (buildTrie ws).lookup_word w = true) ∧
    (walkNode (buildTrie ws).root pre = none →
      Trie.get_suggestions (buildTrie ws) pre lim = []) := by
  have hg : goodN (buildTrie ws).root = true := goodN_buildTrie ws
  cases hw : walkNode (buildTrie ws).root pre with
  | none =>
      have hres : Trie.get_suggestions (buildTrie ws) pre lim = [] := by
        rw [Trie.get_suggestions, hw]
      rw [hres]
      refine ⟨by simpa using hlim, by simp, by simp, fun _ => rfl⟩
  | some n0 =>
      have hres : Trie.get_suggestions (buildTrie ws) pre lim =
          bfs pre lim (countN n0) [([], n0)] [] := by
        rw [Trie.get_suggestions, hw]
      obtain ⟨hgn0, hpre⟩ := walk_good pre (buildTrie ws).root n0 hg hw
      have hQ : ∀ (suf : List Char) (m : TrieNode),
          walkNode n0 suf = some m → m.is_word = true →
          (pre <+: (pre ++ suf)) ∧ (buildTrie ws).lookup_word (pre ++ suf) = true := by
        intro suf m hwm hword
        obtain ⟨hgm, hsuf⟩ := walk_good suf n0 m hgn0 hwm
        refine ⟨⟨suf, rfl⟩, ?_⟩
        have hlower : lowerStr (pre ++ suf) = pre ++ suf := by
          apply lowerStr_eq_self
          intro c hc
          rcases List.mem_append.mp hc with h1 | h2
          · exact hpre c h1
          · exact hsuf c h2
        rw [lookup_eq_isWordIn, hlower]
        show isWordInN (buildTrie ws).root (pre ++ suf) = true
        unfold isWordInN
        rw [walkNode_append, hw]
        simp [hwm, hword]
      obtain ⟨hQall, hlen⟩ :=
        bfs_spec pre lim n0
          (fun w => (pre <+: w) ∧ (buildTrie ws).lookup_word w = true) hQ hgn0
          (countN n0) [([], n0)] []
          (by
            intro e he
            simp only [List.mem_singleton] at he
            subst he
            rfl)
          (by simp)
      rw [hres]
      refine ⟨?_, fun w hw' => (hQall w hw').1, fun w hw' => (hQall w hw').2,
        fun hcontra => by simp at hcontra⟩
      simp only [List.length_nil, Nat.cast_zero] at hlen
      omega

theorem trie_get_suggestions_spec_witness :
    0 ≤ (2 : Int) ∧
      (((Trie.get_suggestions (buildTrie [['c','a','t']]) ['c'] 2).length : Int) ≤ 2 ∧
       (∀ w ∈ Trie.get_suggestions (buildTrie [['c','a','t']]) ['c'] 2, ['c'] <+: w) ∧
       (∀ w ∈ Trie.get_suggestions (buildTrie [['c','a','t']]) ['c'] 2,
          (buildTrie [['c','a','t']]).lookup_word w = true) ∧
       (walkNode (buildTrie [['c','a','t']]).root ['c'] = none →
          Trie.get_suggestions (buildTrie [['c','a','t']]) ['c'] 2 = [])) :=
  ⟨by decide, trie_get_suggestions_spec [['c','a','t']] ['c'] 2 (by decide)⟩

/-- C10: insert case-folds its argument but get_suggestions and
complete_from_prefix do not; on a trie built solely via insert, a prefix
containing an ASCII uppercase letter has no node, so get_suggestions
returns the empty list and complete_from_prefix the empty string. -/
theorem trie_uppercase_no_fold (ws : List (List Char)) (pre : List Char) (lim : Int)
    (h : ∃ c ∈ pre, isUp c) :
    Trie.get_suggestions (buildTrie ws) pre lim = [] ∧
    Trie.completeFrom (buildTrie ws) pre = [] := by
  have hg := goodN_buildTrie ws
  have hw : walkNode (buildTrie ws).root pre = none := walk_fail_up pre _ hg h
  constructor
  · rw [Trie.get_suggestions, hw]
  · rw [Trie.completeFrom, hw]

theorem trie_uppercase_no_fold_witness :
    (∃ c ∈ (['C','a','t'] : List Char), isUp c) ∧
      (buildTrie [['c','a','t']]).lookup_word ['C','a','t'] = true ∧
      (Trie.get_suggestions (buildTrie [['c','a','t']]) ['C','a','t'] 3 = [] ∧
       Trie.completeFrom (buildTrie [['c','a','t']]) ['C','a','t'] = []) :=
  ⟨by decide, by decide, trie_uppercase_no_fold [['c','a','t']] ['C','a','t'] 3 (by decide)⟩

/-! BK-tree (src/bktree.py).  A node holds a word and an insertion-ordered
map from integer edit distance to child node, modelled as an association
forest keyed by `Nat`. -/

mutual
inductive BKNode where
  | mk : List Char → BKForest → BKNode
inductive BKForest where
  | nil : BKForest
  | cons : Nat → BKNode → BKForest → BKForest
end

def BKNode.word : BKNode → List Char
  | BKNode.mk u _ => u

def BKNode.children : BKNode → BKForest
  | BKNode.mk _ f => f

/-- The membership test `dist in curr.children` on the children map. -/
def hasKeyB : BKForest → Nat → Bool
  | BKForest.nil, _ => false
  | BKForest.cons k _ f, d => k == d || hasKeyB f d

/-- The assignment `curr.children[dist] = _BKNode(word)` for a fresh key:
Python dicts append new keys at the end of the iteration order. -/
def appendChild : BKForest → Nat → List Char → BKForest
  | BKForest.nil, d, w => BKForest.cons d (BKNode.mk w BKForest.nil) BKForest.nil
  | BKForest.cons k n f, d, w => BKForest.cons k n (appendChild f d w)

mutual
/-- The descent loop of `BKTree.insert` in src/bktree.py: compute
`dist = levenshtein(curr.word, word)`; while the key exists descend into
that child; afterwards a distance of 0 means the word is already present
(no-op), otherwise a new leaf is attached under the new key. -/
def insNode : BKNode → List Char → BKNode
  | BKNode.mk u f, w =>
      let d := levenshtein u w
      if hasKeyB f d then BKNode.mk u (insForest f d w)
      else if d = 0 then BKNode.mk u f
      else BKNode.mk u (appendChild f d w)
def insForest : BKForest → Nat → List Char → BKForest
  | BKForest.nil, _, _ => BKForest.nil
  | BKForest.cons k n f, d, w =>
      if k == d then BKForest.cons k (insNode n w) f
      else BKForest.cons k n (insForest f d w)
end

mutual
/-- The DFS of `_BKNode.similar_words` in src/bktree.py: include the node's
word when within tolerance and recurse into exactly the children whose edge
key lies in the window `dist - tolerance <= k <= dist + tolerance`. -/
def similarNode (w : List Char) (t : Int) : BKNode → List (List Char)
  | BKNode.mk u f =>
      let dist := levenshtein u w
      (if (dist : Int) ≤ t then [u] else []) ++ similarForest w t dist f
def similarForest (w : List Char) (t : Int) (dist : Nat) : BKForest → List (List Char)
  | BKForest.nil => []
  | BKForest.cons k n f =>
      (if (dist : Int) - t ≤ (k : Int) ∧ (k : Int) ≤ (dist : Int) + t
        then similarNode w t n else []) ++ similarForest w t dist f
end

mutual
/-- All words stored in a BK subtree, the node's own word first. -/
def wordsNode : BKNode → List (List Char)
  | BKNode.mk u f => u :: wordsForest f
def wordsForest : BKForest → List (List Char)
  | BKForest.nil => []
  | BKForest.cons _ n f => wordsNode n ++ wordsForest f
end

mutual
def countBN : BKNode → Nat
  | BKNode.mk _ f => 1 + countBF f
def countBF : BKForest → Nat
  | BKForest.nil => 0
  | BKForest.cons _ n f => countBN n + countBF f
end

/-- A BKTree as in src/bktree.py: never empty, owns a root node. -/
structure BKTree where
  root : BKNode

/-- BKTree.insert from src/bktree.py; the empty word is rejected up front. -/
def BKTree.insert (t : BKTree) (w : List Char) : BKTree :=
  if w = [] then t else ⟨insNode t.root w⟩

/-- BKTree.get_similar_words from src/bktree.py. -/
def BKTree.get_similar_words (t : BKTree) (w : List Char) (tol : Int) : List (List Char) :=
  similarNode w tol t.root

/-- The function make_bktree of src/bktree.py: the first word becomes the
root, the rest are inserted in order. -/
def buildBK (w0 : List Char) (ws : List (List Char)) : BKTree :=
  ws.foldl BKTree.insert ⟨BKNode.mk w0 BKForest.nil⟩

mutual
/-- Structural invariant of BK-trees built by inserts: in every node, the
children map has pairwise distinct keys, no key 0, and under key `k` only
words at levenshtein distance exactly `k` from the node's word. -/
def invBN : BKNode → Bool
  | BKNode.mk u f => invBF u f
def invBF : List Char → BKForest → Bool
  | _, BKForest.nil => true
  | u, BKForest.cons k n f =>
      decide (k ≠ 0) && !(hasKeyB f k) &&
        (wordsNode n).all (fun v => levenshtein u v == k) && invBN n && invBF u f
end

theorem levenshtein_symm (s1 s2 : List Char) : levenshtein s1 s2 = levenshtein s2 s1 := by
  rw [levenshtein_eq_levL, levenshtein_eq_levL, levL, levL, levRec_symm]

theorem levenshtein_eq_zero_iff (s1 s2 : List Char) : levenshtein s1 s2 = 0 ↔ s1 = s2 := by
  rw [levenshtein_eq_levL, levL, levRec_eq_zero_iff]
  constructor
  · intro h; exact List.reverse_injective h
  · rintro rfl; rfl

theorem levenshtein_triangle (a b c : List Char) :
    levenshtein a c ≤ levenshtein a b + levenshtein b c := by
  rw [levenshtein_eq_levL, levenshtein_eq_levL, levenshtein_eq_levL]
  exact levRec_triangle a.reverse b.reverse c.reverse

theorem levenshtein_self (s : List Char) : levenshtein s s = 0 :=
  (levenshtein_eq_zero_iff s s).mpr rfl

theorem hasKeyB_appendChild : ∀ (f : BKForest) (d : Nat) (w : List Char) (k : Nat),
    hasKeyB (appendChild f d w) k = (hasKeyB f k || k == d)
  | BKForest.nil, d, w, k => by simp [appendChild, hasKeyB, Nat.beq_eq, eq_comm]
  | BKForest.cons k' n f, d, w, k => by
      simp [appendChild, hasKeyB, hasKeyB_appendChild f d w k, Bool.or_assoc]

theorem wordsForest_appendChild : ∀ (f : BKForest) (d : Nat) (w : List Char),
    wordsForest (appendChild f d w) = wordsForest f ++ [w]
  | BKForest.nil, d, w => by simp [appendChild, wordsForest, wordsNode]
  | BKForest.cons k n f, d, w => by
      simp [appendChild, wordsForest, wordsForest_appendChild f d w]

theorem hasKeyB_insForest : ∀ (f : BKForest) (d : Nat) (w : List Char) (k : Nat),
    hasKeyB (insForest f d w) k = hasKeyB f k
  | BKForest.nil, d, w, k => rfl
  | BKForest.cons k' n f, d, w, k => by
      by_cases h : k' = d
      · simp [insForest, h, hasKeyB]
      · have h' : (k' == d) = false := by simp [h]
        simp [insForest, h', hasKeyB, hasKeyB_insForest f d w k]

theorem invBF_no_zero_key : ∀ (f : BKForest) (u : List Char),
    invBF u f = true → hasKeyB f 0 = false
  | BKForest.nil, u, _ => rfl
  | BKForest.cons k n f, u, hinv => by
      simp only [invBF, Bool.and_eq_true, decide_eq_true_eq, Bool.not_eq_true'] at hinv
      obtain ⟨⟨⟨⟨hk0, hkey⟩, hall⟩, hn⟩, hf⟩ := hinv
      have h1 : (k == 0) = false := by simp [hk0]
      simp [hasKeyB, h1, invBF_no_zero_key f u hf]

theorem keyB_of_mem : ∀ (f : BKForest) (u w : List Char),
    invBF u f = true → w ∈ wordsForest f → hasKeyB f (levenshtein u w) = true
  | BKForest.nil, u, w, _, hmem => by simp [wordsForest] at hmem
  | BKForest.cons k n f, u, w, hinv, hmem => by
      simp only [invBF, Bool.and_eq_true, decide_eq_true_eq, Bool.not_eq_true'] at hinv
      obtain ⟨⟨⟨⟨hk0, hkey⟩, hall⟩, hn⟩, hf⟩ := hinv
      rw [wordsForest, List.mem_append] at hmem
      rcases hmem with h1 | h2
      · have : levenshtein u w = k := by
          have := List.all_eq_true.mp hall _ h1
          simpa using this
        simp [hasKeyB, this]
      · simp [hasKeyB, keyB_of_mem f u w hf h2]

mutual
theorem mem_insNode : ∀ (n : BKNode) (w v : List Char), invBN n = true →
    (v ∈ wordsNode (insNode n w) ↔ v ∈ wordsNode n ∨ v = w)
  | BKNode.mk u f, w, v, hinv => by
      rw [show insNode (BKNode.mk u f) w =
          (if hasKeyB f (levenshtein u w) then BKNode.mk u (insForest f (levenshtein u w) w)
           else if levenshtein u w = 0 then BKNode.mk u f
           else BKNode.mk u (appendChild f (levenshtein u w) w)) from rfl]
      by_cases hk : hasKeyB f (levenshtein u w) = true
      · rw [if_pos hk, wordsNode, wordsNode]
        have hrec := mem_insForest f (levenshtein u w) w v (by exact hinv) hk
        constructor
        · intro h
          rcases List.mem_cons.mp h with rfl | h2
          · exact Or.inl (by simp [wordsNode])
          · rcases hrec.mp h2 with h3 | h3
            · exact Or.inl (by simp [h3])
            · exact Or.inr h3
        · intro h
          rcases h with h | rfl
          · rcases List.mem_cons.mp h with rfl | h2
            · simp
            · simp only [List.mem_cons]
              exact Or.inr (hrec.mpr (Or.inl h2))
          · simp only [List.mem_cons]
            exact Or.inr (hrec.mpr (Or.inr rfl))
      · rw [if_neg hk]
        by_cases h0 : levenshtein u w = 0
        · rw [if_pos h0]
          have huw : u = w := (levenshtein_eq_zero_iff u w).mp h0
          subst huw
          constructor
          · exact Or.inl
          · rintro (h | rfl)
            · exact h
            · simp [wordsNode]
        · rw [if_neg h0, wordsNode, wordsNode, wordsForest_appendChild]
          constructor
          · intro h
            rcases List.mem_cons.mp h with rfl | h2
            · exact Or.inl (by simp)
            · rcases List.mem_append.mp h2 with h3 | h3
              · exact Or.inl (by simp [h3])
              · exact Or.inr (by simpa using h3)
          · rintro (h | rfl)
            · rcases List.mem_cons.mp h with rfl | h2
              · simp
              · simp [h2]
            · simp
theorem mem_insForest : ∀ (f : BKForest) (d : Nat) (w v : List Char) {u : List Char},
    invBF u f = true → hasKeyB f d = true →
    (v ∈ wordsForest (insForest f d w) ↔ v ∈ wordsForest f ∨ v = w)
  | BKForest.nil, d, w, v, u, _, hk => by simp [hasKeyB] at hk
  | BKForest.cons k n f, d, w, v, u, hinv, hk => by
      simp only [invBF, Bool.and_eq_true, decide_eq_true_eq, Bool.not_eq_true'] at hinv
      obtain ⟨⟨⟨⟨hk0, hkey⟩, hall⟩, hn⟩, hf⟩ := hinv
      by_cases hkd : k = d
      · subst hkd
        rw [show insForest (BKForest.cons k n f) k w =
            BKForest.cons k (insNode n w) f from by simp [insForest]]
        rw [wordsForest, wordsForest, List.mem_append, List.mem_append]
        have hrec := mem_insNode n w v hn
        constructor
        · rintro (h | h)
          · rcases hrec.mp h with h2 | h2
            · exact Or.inl (Or.inl h2)
            · exact Or.inr h2
          · exact Or.inl (Or.inr h)
        · rintro ((h | h) | rfl)
          · exact Or.inl (hrec.mpr (Or.inl h))
          · exact Or.inr h
          · exact Or.inl (hrec.mpr (Or.inr rfl))
      · have hkd' : (k == d) = false := by simp [hkd]
        rw [show insForest (BKForest.cons k n f) d w =
            BKForest.cons k n (insForest f d w) from by simp [insForest, hkd']]
        rw [wordsForest, wordsForest, List.mem_append, List.mem_append]
        have hk2 : hasKeyB f d = true := by
          rw [hasKeyB, hkd'] at hk
          simpa using hk
        have hrec := mem_insForest f d w v hf hk2
        constructor
        · rintro (h | h)
          · exact Or.inl (Or.inl h)
          · rcases hrec.mp h with h2 | h2
            · exact Or.inl (Or.inr h2)
            · exact Or.inr h2
        · rintro ((h | h) | rfl)
          · exact Or.inl h
          · exact Or.inr (hrec.mpr (Or.inl h))
          · exact Or.inr (hrec.mpr (Or.inr rfl))
end

theorem invBF_appendChild : ∀ (f : BKForest) (u w : List Char) (d : Nat),
    invBF u f = true → d ≠ 0 → hasKeyB f d = false → levenshtein u w = d →
    invBF u (appendChild f d w) = true
  | BKForest.nil, u, w, d, _, h0, _, hd => by
      simp [appendChild, invBF, invBN, hasKeyB, wordsNode, wordsForest, h0, hd]
  | BKForest.cons k n f, u, w, d, hinv, h0, hk, hd => by
      simp only [invBF, Bool.and_eq_true, decide_eq_true_eq, Bool.not_eq_true'] at hinv
      obtain ⟨⟨⟨⟨hk0, hkey⟩, hall⟩, hn⟩, hf⟩ := hinv
      rw [hasKeyB, Bool.or_eq_false_iff] at hk
      obtain ⟨hkd, hk2⟩ := hk
      rw [show appendChild (BKForest.cons k n f) d w =
          BKForest.cons k n (appendChild f d w) from rfl]
      simp only [invBF, Bool.and_eq_true, decide_eq_true_eq, Bool.not_eq_true']
      refine ⟨⟨⟨⟨hk0, ?_⟩, hall⟩, hn⟩, invBF_appendChild f u w d hf h0 hk2 hd⟩
      rw [hasKeyB_appendChild, hkey, hkd]
      rfl

mutual
theorem inv_insNode : ∀ (n : BKNode) (w : List Char), invBN n = true →
    invBN (insNode n w) = true
  | BKNode.mk u f, w, hinv => by
      rw [show insNode (BKNode.mk u f) w =
          (if hasKeyB f (levenshtein u w) then BKNode.mk u (insForest f (levenshtein u w) w)
           else if levenshtein u w = 0 then BKNode.mk u f
           else BKNode.mk u (appendChild f (levenshtein u w) w)) from rfl]
      by_cases hk : hasKeyB f (levenshtein u w) = true
      · rw [if_pos hk]
        exact inv_insForest f u w trivial (by exact hinv)
      · rw [if_neg hk]
        by_cases h0 : levenshtein u w = 0
        · rw [if_pos h0]; exact hinv
        · rw [if_neg h0]
          show invBF u (appendChild f (levenshtein u w) w) = true
          have hk' : hasKeyB f (levenshtein u w) = false := by
            cases hcase : hasKeyB f (levenshtein u w) with
            | false => rfl
            | true => exact absurd hcase hk
          exact invBF_appendChild f u w (levenshtein u w) (by exact hinv) h0 hk' rfl
theorem inv_insForest : ∀ (f : BKForest) (u w : List Char) (hd : True),
    invBF u f = true → invBF u (insForest f (levenshtein u w) w) = true
  | BKForest.nil, u, w, _, _ => rfl
  | BKForest.cons k n f, u, w, _, hinv => by
      simp only [invBF, Bool.and_eq_true, decide_eq_true_eq, Bool.not_eq_true'] at hinv
      obtain ⟨⟨⟨⟨hk0, hkey⟩, hall⟩, hn⟩, hf⟩ := hinv
      by_cases hkd : k = levenshtein u w
      · have hkd' : (k == levenshtein u w) = true := by simp [hkd]
        rw [show insForest (BKForest.cons k n f) (levenshtein u w) w =
            BKForest.cons k (insNode n w) f from by simp [insForest, hkd']]
        simp only [invBF, Bool.and_eq_true, decide_eq_true_eq, Bool.not_eq_true']
        refine ⟨⟨⟨⟨hk0, hkey⟩, ?_⟩, inv_insNode n w hn⟩, hf⟩
        rw [List.all_eq_true]
        intro v hv
        rcases (mem_insNode n w v hn).mp hv with h1 | rfl
        · exact List.all_eq_true.mp hall v h1
        · simp [hkd]
      · have hkd' : (k == levenshtein u w) = false := by simp [hkd]
        rw [show insForest (BKForest.cons k n f) (levenshtein u w) w =
            BKForest.cons k n (insForest f (levenshtein u w) w) from by
              simp [insForest, hkd']]
        simp only [invBF, Bool.and_eq_true, decide_eq_true_eq, Bool.not_eq_true']
        refine ⟨⟨⟨⟨hk0, ?_⟩, hall⟩, hn⟩, inv_insForest f u w trivial hf⟩
        rw [hasKeyB_insForest, hkey]
end

mutual
theorem insNode_mem_eq : ∀ (n : BKNode) (w : List Char), invBN n = true →
    w ∈ wordsNode n → insNode n w = n
  | BKNode.mk u f, w, hinv, hmem => by
      rw [show insNode (BKNode.mk u f) w =
          (if hasKeyB f (levenshtein u w) then BKNode.mk u (insForest f (levenshtein u w) w)
           else if levenshtein u w = 0 then BKNode.mk u f
           else BKNode.mk u (appendChild f (levenshtein u w) w)) from rfl]
      rw [wordsNode, List.mem_cons] at hmem
      rcases hmem with rfl | hmem2
      · have h0 : levenshtein w w = 0 := levenshtein_self w
        have hk : hasKeyB f (levenshtein w w) = false := by
          rw [h0]
          exact invBF_no_zero_key f w (by exact hinv)
        rw [hk, if_neg (by simp), if_pos h0]
      · have hk : hasKeyB f (levenshtein u w) = true :=
          keyB_of_mem f u w (by exact hinv) hmem2
        rw [hk, if_pos rfl]
        rw [insForest_mem_eq f u w (by exact hinv) hmem2]
theorem insForest_mem_eq : ∀ (f : BKForest) (u w : List Char), invBF u f = true →
    w ∈ wordsForest f → insForest f (levenshtein u w) w = f
  | BKForest.nil, u, w, _, hmem => by simp [wordsForest] at hmem
  | BKForest.cons k n f, u, w, hinv, hmem => by
      simp only [invBF, Bool.and_eq_true, decide_eq_true_eq, Bool.not_eq_true'] at hinv
      obtain ⟨⟨⟨⟨hk0, hkey⟩, hall⟩, hn⟩, hf⟩ := hinv
      rw [wordsForest, List.mem_append] at hmem
      rcases hmem with h1 | h2
      · have hdk : levenshtein u w = k := by
          have := List.all_eq_true.mp hall _ h1
          simpa using this
        rw [hdk]
        rw [show insForest (BKForest.cons k n f) k w =
            BKForest.cons k (insNode n w) f from by simp [insForest]]
        rw [insNode_mem_eq n w hn h1]
      · have hne : ¬ (k = levenshtein u w) := by
          intro hcontra
          have := keyB_of_mem f u w hf h2
          rw [← hcontra] at this
          rw [this] at hkey
          cases hkey
        have hne' : (k == levenshtein u w) = false := by simp [hne]
        rw [show insForest (BKForest.cons k n f) (levenshtein u w) w =
            BKForest.cons k n (insForest f (levenshtein u w) w) from by
              simp [insForest, hne']]
        rw [insForest_mem_eq f u w hf h2]
end

mutual
theorem mem_similarNode : ∀ (n : BKNode) (w : List Char) (t : Int) (v : List Char),
    invBN n = true →
    (v ∈ similarNode w t n ↔ v ∈ wordsNode n ∧ (levenshtein v w : Int) ≤ t)
  | BKNode.mk u f, w, t, v, hinv => by
      rw [show similarNode w t (BKNode.mk u f) =
          (if ((levenshtein u w : Nat) : Int) ≤ t then [u] else []) ++
            similarForest w t (levenshtein u w) f from rfl]
      rw [wordsNode, List.mem_append, List.mem_cons]
      have hrec := mem_similarForest f u w t v (by exact hinv)
      by_cases hut : ((levenshtein u w : Nat) : Int) ≤ t
      · rw [if_pos hut]
        simp only [List.mem_singleton]
        constructor
        · rintro (rfl | h2)
          · exact ⟨Or.inl rfl, hut⟩
          · obtain ⟨hm, hle⟩ := hrec.mp h2
            exact ⟨Or.inr hm, hle⟩
        · rintro ⟨rfl | hm, hle⟩
          · exact Or.inl rfl
          · exact Or.inr (hrec.mpr ⟨hm, hle⟩)
      · rw [if_neg hut]
        simp only [List.not_mem_nil, false_or]
        constructor
        · intro h2
          obtain ⟨hm, hle⟩ := hrec.mp h2
          exact ⟨Or.inr hm, hle⟩
        · rintro ⟨rfl | hm, hle⟩
          · exact absurd hle hut
          · exact hrec.mpr ⟨hm, hle⟩
theorem mem_similarForest : ∀ (f : BKForest) (u w : List Char) (t : Int) (v : List Char),
    invBF u f = true →
    (v ∈ similarForest w t (levenshtein u w) f ↔
      v ∈ wordsForest f ∧ (levenshtein v w : Int) ≤ t)
  | BKForest.nil, u, w, t, v, _ => by simp [similarForest, wordsForest]
  | BKForest.cons k n f, u, w, t, v, hinv => by
      simp only [invBF, Bool.and_eq_true, decide_eq_true_eq, Bool.not_eq_true'] at hinv
      obtain ⟨⟨⟨⟨hk0, hkey⟩, hall⟩, hn⟩, hf⟩ := hinv
      rw [show similarForest w t (levenshtein u w) (BKForest.cons k n f) =
          (if ((levenshtein u w : Nat) : Int) - t ≤ (k : Int) ∧
              (k : Int) ≤ ((levenshtein u w : Nat) : Int) + t
            then similarNode w t n else []) ++
            similarForest w t (levenshtein u w) f from rfl]
      rw [wordsForest, List.mem_append, List.mem_append]
      have hrecF := mem_similarForest f u w t v hf
      by_cases hwin : ((levenshtein u w : Nat) : Int) - t ≤ (k : Int) ∧
          (k : Int) ≤ ((levenshtein u w : Nat) : Int) + t
      · rw [if_pos hwin]
        have hrecN := mem_similarNode n w t v hn
        constructor
        · rintro (h1 | h2)
          · obtain ⟨hm, hle⟩ := hrecN.mp h1
            exact ⟨Or.inl hm, hle⟩
          · obtain ⟨hm, hle⟩ := hrecF.mp h2
            exact ⟨Or.inr hm, hle⟩
        · rintro ⟨hm | hm, hle⟩
          · exact Or.inl (hrecN.mpr ⟨hm, hle⟩)
          · exact Or.inr (hrecF.mpr ⟨hm, hle⟩)
      · rw [if_neg hwin]
        simp only [List.not_mem_nil, false_or]
        constructor
        · intro h2
          obtain ⟨hm, hle⟩ := hrecF.mp h2
          exact ⟨Or.inr hm, hle⟩
        · rintro ⟨hm | hm, hle⟩
          · exfalso
            have hkuv : levenshtein u v = k := by
              have := List.all_eq_true.mp hall _ hm
              simpa using this
            have ht1 : levenshtein u w ≤ levenshtein u v + levenshtein v w :=
              levenshtein_triangle u v w
            have ht2 : levenshtein u v ≤ levenshtein u w + levenshtein w v :=
              levenshtein_triangle u w v
            have hsym : levenshtein w v = levenshtein v w := levenshtein_symm w v
            rw [hkuv] at ht1 ht2
            rw [hsym] at ht2
            push_cast at hwin hle ⊢
            omega
          · exact hrecF.mpr ⟨hm, hle⟩
end

theorem buildBK_fold (w0 : List Char) (ws : List (List Char)) :
    invBN (buildBK w0 ws).root = true ∧
      ∀ v, v ∈ wordsNode (buildBK w0 ws).root ↔ (v = w0 ∨ (v ∈ ws ∧ v ≠ [])) := by
  have key : ∀ (ws : List (List Char)) (tr : BKTree), invBN tr.root = true →
      invBN (ws.foldl BKTree.insert tr).root = true ∧
        ∀ v, v ∈ wordsNode (ws.foldl BKTree.insert tr).root ↔
          (v ∈ wordsNode tr.root ∨ (v ∈ ws ∧ v ≠ [])) := by
    intro ws
    induction ws with
    | nil =>
        intro tr h
        exact ⟨h, fun v => by simp⟩
    | cons w ws' ih =>
        intro tr h
        have hstep : invBN (tr.insert w).root = true ∧
            ∀ v, v ∈ wordsNode (tr.insert w).root ↔
              (v ∈ wordsNode tr.root ∨ (v = w ∧ w ≠ [])) := by
          rw [BKTree.insert]
          by_cases hw : w = []
          · rw [if_pos hw]
            exact ⟨h, fun v => by simp [hw]⟩
          · rw [if_neg hw]
            refine ⟨inv_insNode tr.root w h, fun v => ?_⟩
            rw [show (⟨insNode tr.root w⟩ : BKTree).root = insNode tr.root w from rfl]
            rw [mem_insNode tr.root w v h]
            simp [hw]
        obtain ⟨h1, h2⟩ := hstep
        obtain ⟨h3, h4⟩ := ih (tr.insert w) h1
        refine ⟨by simpa using h3, fun v => ?_⟩
        rw [show (w :: ws').foldl BKTree.insert tr = ws'.foldl BKTree.insert (tr.insert w) from rfl]
        rw [h4 v, h2 v]
        constructor
        · rintro ((h5 | ⟨rfl, h6⟩) | ⟨h5, h6⟩)
          · exact Or.inl h5
          · exact Or.inr ⟨by simp, h6⟩
          · exact Or.inr ⟨by simp [h5], h6⟩
        · rintro (h5 | ⟨h5, h6⟩)
          · exact Or.inl (Or.inl h5)
          · rcases List.mem_cons.mp h5 with rfl | h7
            · exact Or.inl (Or.inr ⟨rfl, h6⟩)
            · exact Or.inr ⟨h7, h6⟩
  obtain ⟨h1, h2⟩ := key ws ⟨BKNode.mk w0 BKForest.nil⟩ rfl
  refine ⟨h1, fun v => ?_⟩
  rw [buildBK, h2 v]
  simp [wordsNode, wordsForest]

/-- C1 (amended): a word appears in get_similar_words of a built BK-tree
exactly when it is a word of the tree (the root word or a nonempty inserted
word) within tolerance; the edge-window pruning discards nothing within
tolerance. -/
theorem bk_get_similar_words_spec (w0 : List Char) (ws : List (List Char))
    (q : List Char) (t : Int) (w : List Char) (ht : 0 ≤ t) :
    w ∈ (buildBK w0 ws).get_similar_words q t ↔
      ((w = w0 ∨ (w ∈ ws ∧ w ≠ [])) ∧ (levenshtein w q : Int) ≤ t) := by
  obtain ⟨hinv, hwords⟩ := buildBK_fold w0 ws
  rw [BKTree.get_similar_words, mem_similarNode _ _ _ _ hinv, hwords w]

theorem bk_get_similar_words_spec_witness :
    0 ≤ (1 : Int) ∧
      (['c','a','t'] ∈ (buildBK ['c','a','t'] [['c','a','r']]).get_similar_words ['c','o','t'] 1 ↔
        ((['c','a','t'] = ['c','a','t'] ∨ (['c','a','t'] ∈ [['c','a','r']] ∧ ['c','a','t'] ≠ [])) ∧
          (levenshtein ['c','a','t'] ['c','o','t'] : Int) ≤ 1)) :=
  ⟨by decide,
    bk_get_similar_words_spec ['c','a','t'] [['c','a','r']] ['c','o','t'] 1 ['c','a','t']
      (by decide)⟩

/-- C1 counterexample to the claim as stated: the empty word can be
"inserted" (a silent no-op) and be within tolerance of the query, yet it
never appears in get_similar_words; so "w appears iff w was inserted and
within tolerance" is false. -/
theorem bk_get_similar_words_counterexample :
    ¬ ((([] : List Char) ∈ (buildBK ['a'] [([] : List Char)]).get_similar_words [] 0) ↔
       ((([] : List Char) ∈ ([([] : List Char)] : List (List Char))) ∧
         ((levenshtein [] [] : Int) ≤ 0))) := by
  decide

/-- C8: inserting a word twice is idempotent for the trie (structure, hence
lookup_word and the all_words multiset) and for the BK-tree; inserting a
word already stored in a built BK-tree creates no new node and no new edge
(the tree is unchanged). -/
theorem insert_idempotent (t : Trie) (w w0 v : List Char) (ws : List (List Char)) :
    ((t.insert w).insert w = t.insert w) ∧
    (∀ s, ((t.insert w).insert w).lookup_word s = (t.insert w).lookup_word s) ∧
    (((t.insert w).insert w).all_words = (t.insert w).all_words) ∧
    (((buildBK w0 ws).insert v).insert v = (buildBK w0 ws).insert v) ∧
    (∀ u, u ∈ wordsNode (buildBK w0 ws).root → (buildBK w0 ws).insert u = buildBK w0 ws) := by
  obtain ⟨hinv, hwords⟩ := buildBK_fold w0 ws
  refine ⟨trie_insert_idem t w, ?_, ?_, ?_, ?_⟩
  · intro s; rw [trie_insert_idem]
  · rw [trie_insert_idem]
  · by_cases hv : v = []
    · subst hv
      rw [BKTree.insert, if_pos rfl, BKTree.insert, if_pos rfl]
    · have hroot : ((buildBK w0 ws).insert v).root = insNode (buildBK w0 ws).root v := by
        rw [BKTree.insert, if_neg hv]
      rw [show ((buildBK w0 ws).insert v).insert v =
          (if v = [] then (buildBK w0 ws).insert v
           else ⟨insNode ((buildBK w0 ws).insert v).root v⟩) from rfl]
      rw [if_neg hv, hroot]
      have hinv2 : invBN (insNode (buildBK w0 ws).root v) = true :=
        inv_insNode _ v hinv
      have hmem2 : v ∈ wordsNode (insNode (buildBK w0 ws).root v) :=
        (mem_insNode _ v v hinv).mpr (Or.inr rfl)
      rw [insNode_mem_eq _ v hinv2 hmem2, BKTree.insert, if_neg hv]
  · intro u hu
    rw [BKTree.insert]
    by_cases hu0 : u = []
    · rw [if_pos hu0]
    · rw [if_neg hu0, insNode_mem_eq _ u hinv hu]

theorem insert_idempotent_witness :
    (['b'] ∈ wordsNode (buildBK ['a'] [['b']]).root) ∧
      (buildBK ['a'] [['b']]).insert ['b'] = buildBK ['a'] [['b']] :=
  ⟨by decide,
    (insert_idempotent (buildTrie [['a']]) ['a'] ['a'] ['b'] [['b']]).2.2.2.2 ['b'] (by decide)⟩

/-! Levenshtein NFA (src/levenshtein.py).  A state is a pair
`(offset, d)` of Python ints: `offset` characters of the query matched so
far and `d` edits still allowed.  State sets are finite sets as in the
Python code. -/

/-- Python string indexing `s[i]`: non-negative indices from the front,
negative indices from the back, `none` for an IndexError. -/
def pyStrGet (s : List Char) (i : Int) : Option Char :=
  if 0 ≤ i then s.get? i.toNat
  else if 0 ≤ i + s.length then s.get? (i + s.length).toNat
  else none

/-- LevenshteinNFA.transitions from src/levenshtein.py: for `d > 0` an
insertion `(offset, d-1)` and a substitution `(offset+1, d-1)`; and for
each `k < min(d + 1, len(query) - offset)` with `c == query[offset + k]` a
match `(offset + k + 1, d - k)` that deletes `k` query characters. -/
def transitions (q : List Char) (s : Int × Int) (c : Char) : List (Int × Int) :=
  (if 0 < s.2 then [(s.1, s.2 - 1), (s.1 + 1, s.2 - 1)] else []) ++
    ((List.range (min (s.2 + 1) ((q.length : Int) - s.1)).toNat).filterMap
      (fun (k : Nat) => if pyStrGet q (s.1 + (k : Int)) = some c
        then some (s.1 + (k : Int) + 1, s.2 - (k : Int)) else none))

/-- The subsumption relation `_implies` of LevenshteinNFA.simplify. -/
def impliesS (s1 s2 : Int × Int) : Prop :=
  s2.2 < 0 ∨ s1.2 - s2.2 ≥ |s1.1 - s2.1|

instance (s1 s2 : Int × Int) : Decidable (impliesS s1 s2) := by
  unfold impliesS; infer_instance

/-- LevenshteinNFA.simplify: keep exactly the states not implied by another
distinct state of the set. -/
def simplifyS (S : Finset (Int × Int)) : Finset (Int × Int) :=
  S.filter (fun s => ∀ s2 ∈ S, s2 = s ∨ ¬ impliesS s2 s)

/-- NFA.step: union of the transitions of all states, then simplify. -/
def step (q : List Char) (S : Finset (Int × Int)) (c : Char) : Finset (Int × Int) :=
  simplifyS (S.biUnion (fun s => (transitions q s c).toFinset))

/-- NFA.step_all: fold `step` over the input characters. -/
def step_all (q : List Char) (S : Finset (Int × Int)) (inputs : List Char) :
    Finset (Int × Int) :=
  inputs.foldl (step q) S

/-- LevenshteinNFA.initial_states. -/
def initial_states (D : Int) : Finset (Int × Int) := {(0, D)}

/-- LevenshteinNFA.accept: the unmatched query suffix fits in the budget. -/
def acceptS (q : List Char) (s : Int × Int) : Prop := (q.length : Int) - s.1 ≤ s.2

instance (q : List Char) (s : Int × Int) : Decidable (acceptS q s) := by
  unfold acceptS; infer_instance

/-- LevenshteinNFA.accept_best: least `D - d` over accepting states, `-1`
when no state accepts. -/
def accept_best (q : List Char) (D : Int) (S : Finset (Int × Int)) : Int :=
  let acc := S.filter (fun s => acceptS q s)
  if h : acc.Nonempty then (acc.image (fun s => D - s.2)).min' (h.image _) else -1

/-- The function levenshtein_using_nfa of src/levenshtein.py. -/
def levenshtein_using_nfa (s1 s2 : List Char) (D : Int) : Int :=
  accept_best s2 D (step_all s2 (initial_states D) s1)

theorem levenshtein_nil_left (s : List Char) : levenshtein [] s = s.length := by
  rw [levenshtein_eq_levL, levL]
  simp [levRec_nil]

theorem levenshtein_nil_right (s : List Char) : levenshtein s [] = s.length := by
  rw [levenshtein_eq_levL, levL]
  simp [levRec_nil_right]

theorem levenshtein_append_le (x A B : List Char) :
    levenshtein x (A ++ B) ≤ levenshtein x A + B.length := by
  rw [levenshtein_eq_levL, levenshtein_eq_levL, levL, levL, List.reverse_append]
  have := levRec_prepend_le x.reverse B.reverse A.reverse
  simpa using this

theorem levenshtein_snoc_matched (p A : List Char) (c : Char) :
    levenshtein (p ++ [c]) (A ++ [c]) ≤ levenshtein p A := by
  rw [levenshtein_eq_levL, levenshtein_eq_levL, levL_snoc_snoc]
  have : chCost c c = 0 := by simp [chCost]
  omega

theorem levenshtein_snoc_left_le (p A : List Char) (c : Char) :
    levenshtein (p ++ [c]) A ≤ levenshtein p A + 1 := by
  rw [levenshtein_eq_levL, levenshtein_eq_levL, levL, levL, List.reverse_append]
  show levRec ([c] ++ p.reverse) A.reverse ≤ _
  rw [List.singleton_append]
  exact levRec_le_of_edits (Edits.del c (edits_of_levRec p.reverse A.reverse))

theorem levenshtein_snoc_both_le (p A : List Char) (c y : Char) :
    levenshtein (p ++ [c]) (A ++ [y]) ≤ levenshtein p A + 1 := by
  rw [levenshtein_eq_levL, levenshtein_eq_levL, levL_snoc_snoc]
  have : chCost c y ≤ 1 := by unfold chCost; split <;> omega
  omega

theorem levenshtein_length_bound (x y : List Char) :
    x.length ≤ y.length + levenshtein x y ∧ y.length ≤ x.length + levenshtein x y := by
  rw [levenshtein_eq_levL, levL]
  have := levRec_length_bound x.reverse y.reverse
  simpa using this

/-- Snoc recurrence of levenshtein on a query prefix one longer, when the
next query character exists. -/
theorem levenshtein_snoc_take (q p : List Char) (c : Char) (m : Nat) (y : Char)
    (hy : q[m]? = some y) :
    levenshtein (p ++ [c]) (q.take (m + 1)) =
      min (levenshtein p (q.take (m + 1)) + 1)
        (min (levenshtein (p ++ [c]) (q.take m) + 1)
          (levenshtein p (q.take m) + chCost c y)) := by
  have htake : q.take (m + 1) = q.take m ++ [y] := by
    rw [List.take_succ, hy]
    rfl
  rw [htake, levenshtein_eq_levL, levenshtein_eq_levL, levenshtein_eq_levL,
    levenshtein_eq_levL, levL_snoc_snoc]

theorem levenshtein_take_ge (q p : List Char) (c : Char) (m : Nat)
    (hm : q.length ≤ m) :
    levenshtein (p ++ [c]) (q.take (m + 1)) ≤ levenshtein p (q.take m) + 1 := by
  rw [List.take_of_length_le (by omega), List.take_of_length_le hm]
  exact levenshtein_snoc_left_le p q c

theorem levenshtein_take_le_add (q x : List Char) (a b : Nat) (hab : a ≤ b) :
    levenshtein x (q.take b) ≤ levenshtein x (q.take a) + (b - a) := by
  have h1 : q.take b = q.take a ++ (q.drop a).take (b - a) := by
    rw [← List.take_add]
    congr 1
    omega
  rw [h1]
  calc levenshtein x (q.take a ++ (q.drop a).take (b - a)) ≤
      levenshtein x (q.take a) + ((q.drop a).take (b - a)).length :=
        levenshtein_append_le _ _ _
    _ ≤ levenshtein x (q.take a) + (b - a) := by
        have := List.length_take_le (b - a) (q.drop a)
        omega

theorem levenshtein_le_take_add (q x : List Char) (m : Nat) (hm : m ≤ q.length) :
    (levenshtein x q : Int) ≤ levenshtein x (q.take m) + (q.length - m) := by
  have h := levenshtein_take_le_add q x m q.length hm
  rw [List.take_length] at h
  push_cast
  omega

/-- Arithmetic form of the subsumption relation, convenient for omega. -/
theorem impliesS_iff (s1 s2 : Int × Int) :
    impliesS s1 s2 ↔
      s2.2 < 0 ∨ (s1.1 - s2.1 ≤ s1.2 - s2.2 ∧ s2.1 - s1.1 ≤ s1.2 - s2.2) := by
  unfold impliesS
  rw [ge_iff_le, abs_sub_le_iff]

theorem impliesS_refl (s : Int × Int) (h : 0 ≤ s.2) : impliesS s s := by
  rw [impliesS_iff]
  omega

theorem impliesS_trans {a b c : Int × Int} (h1 : impliesS a b) (h2 : impliesS b c)
    (hb : 0 ≤ b.2) (hc : 0 ≤ c.2) : impliesS a c := by
  rw [impliesS_iff] at h1 h2 ⊢
  omega

theorem impliesS_antisymm {a b : Int × Int} (h1 : impliesS a b) (h2 : impliesS b a)
    (ha : 0 ≤ a.2) (hb : 0 ≤ b.2) : a = b := by
  rw [impliesS_iff] at h1 h2
  have h3 : a.1 = b.1 ∧ a.2 = b.2 := by omega
  exact Prod.ext h3.1 h3.2

theorem pyStrGet_nonneg (q : List Char) (i : Int) (h : 0 ≤ i) :
    pyStrGet q i = q[i.toNat]? := by
  rw [pyStrGet, if_pos h, List.get?_eq_getElem?]

theorem mem_transitions {q : List Char} {s t : Int × Int} {c : Char} :
    t ∈ transitions q s c ↔
      (0 < s.2 ∧ (t = (s.1, s.2 - 1) ∨ t = (s.1 + 1, s.2 - 1))) ∨
      (∃ k : Nat, (k : Int) < min (s.2 + 1) ((q.length : Int) - s.1) ∧
        pyStrGet q (s.1 + k) = some c ∧ t = (s.1 + k + 1, s.2 - k)) := by
  unfold transitions
  rw [List.mem_append]
  constructor
  · rintro (h1 | h1)
    · by_cases hs : 0 < s.2
      · rw [if_pos hs] at h1
        simp only [List.mem_cons, List.not_mem_nil, or_false] at h1
        exact Or.inl ⟨hs, h1⟩
      · rw [if_neg hs] at h1
        simp at h1
    · rw [List.mem_filterMap] at h1
      obtain ⟨k, hk, hf⟩ := h1
      rw [List.mem_range] at hk
      by_cases hc : pyStrGet q (s.1 + (k : Int)) = some c
      · rw [if_pos hc] at hf
        have ht : t = (s.1 + (k : Int) + 1, s.2 - (k : Int)) :=
          (Option.some_inj.mp hf).symm
        exact Or.inr ⟨k, by omega, hc, ht⟩
      · rw [if_neg hc] at hf
        cases hf
  · rintro (⟨hs, ht⟩ | ⟨k, hk, hc, rfl⟩)
    · left
      rw [if_pos hs]
      simpa using ht
    · right
      rw [List.mem_filterMap]
      refine ⟨k, ?_, ?_⟩
      · rw [List.mem_range]
        omega
      · rw [if_pos hc]

/-- Soundness invariant of reachable NFA states after consuming the string
`p`: budgets stay in `[0, D]`, offsets are non-negative and within `D` of
`|p|`, and the consumed prefix is within `D - d` edits of the matched query
prefix. -/
def SoundSt (q : List Char) (D : Int) (p : List Char) (s : Int × Int) : Prop :=
  0 ≤ s.2 ∧ s.2 ≤ D ∧ 0 ≤ s.1 ∧
    ((p.length : Int) - s.1 ≤ D - s.2) ∧ (s.1 - (p.length : Int) ≤ D - s.2) ∧
    ((levenshtein p (q.take s.1.toNat) : Int) ≤ D - s.2)

theorem sound_transitions {q : List Char} {D : Int} {p : List Char} {s t : Int × Int}
    {c : Char} (hs : SoundSt q D p s) (ht : t ∈ transitions q s c) :
    SoundSt q D (p ++ [c]) t := by
  obtain ⟨h1, h2, h3, h4, h5, h6⟩ := hs
  rw [mem_transitions] at ht
  rcases ht with ⟨hd, (rfl | rfl)⟩ | ⟨k, hk, hget, rfl⟩
  · refine ⟨by omega, by omega, h3, by simp; omega, by simp; omega, ?_⟩
    have hle := levenshtein_snoc_left_le p (q.take s.1.toNat) c
    push_cast at hle ⊢
    omega
  · have htn : (s.1 + 1).toNat = s.1.toNat + 1 := by omega
    refine ⟨by omega, by omega, by omega, by simp; omega, by simp; omega, ?_⟩
    rw [htn]
    cases hq : q[s.1.toNat]? with
    | some y =>
        rw [levenshtein_snoc_take q p c _ y hq]
        have hcost : chCost c y ≤ 1 := by unfold chCost; split <;> omega
        have hmin : min (levenshtein p (q.take (s.1.toNat + 1)) + 1)
            (min (levenshtein (p ++ [c]) (q.take s.1.toNat) + 1)
              (levenshtein p (q.take s.1.toNat) + chCost c y)) ≤
            levenshtein p (q.take s.1.toNat) + 1 := by omega
        push_cast
        omega
    | none =>
        have hlen : q.length ≤ s.1.toNat := by
          have := List.getElem?_eq_none_iff.mp hq
          omega
        have := levenshtein_take_ge q p c s.1.toNat hlen
        push_cast
        omega
  · have hk2 : (0 : Int) ≤ k := by positivity
    have hjq : s.1 + k < (q.length : Int) := by omega
    have hkd : (k : Int) ≤ s.2 := by omega
    have htn : (s.1 + k + 1).toNat = s.1.toNat + k + 1 := by omega
    rw [pyStrGet_nonneg q _ (by omega)] at hget
    have hjn : (s.1 + k).toNat = s.1.toNat + k := by omega
    rw [hjn] at hget
    refine ⟨by omega, by omega, by omega, by simp; omega, by simp; omega, ?_⟩
    rw [htn]
    have htake : q.take (s.1.toNat + k + 1) = q.take (s.1.toNat + k) ++ [c] := by
      rw [List.take_succ, hget]
      rfl
    rw [htake]
    have hstep1 : levenshtein (p ++ [c]) (q.take (s.1.toNat + k) ++ [c]) ≤
        levenshtein p (q.take (s.1.toNat + k)) := levenshtein_snoc_matched _ _ _
    have hstep2 : levenshtein p (q.take (s.1.toNat + k)) ≤
        levenshtein p (q.take s.1.toNat) + (s.1.toNat + k - s.1.toNat) :=
      levenshtein_take_le_add q p s.1.toNat (s.1.toNat + k) (by omega)
    push_cast
    omega

theorem sound_step {q : List Char} {D : Int} {p : List Char} {S : Finset (Int × Int)}
    {c : Char} (hS : ∀ s ∈ S, SoundSt q D p s) :
    ∀ t ∈ step q S c, SoundSt q D (p ++ [c]) t := by
  intro t ht
  rw [step, simplifyS] at ht
  have ht2 := Finset.mem_filter.mp ht |>.1
  rw [Finset.mem_biUnion] at ht2
  obtain ⟨s, hsS, hts⟩ := ht2
  rw [List.mem_toFinset] at hts
  exact sound_transitions (hS s hsS) hts

theorem sound_step_all {q : List Char} {D : Int} :
    ∀ (rem : List Char) (S : Finset (Int × Int)) (p : List Char),
      (∀ s ∈ S, SoundSt q D p s) →
      ∀ t ∈ step_all q S rem, SoundSt q D (p ++ rem) t := by
  intro rem
  induction rem with
  | nil =>
      intro S p hS t ht
      simpa using hS t (by simpa [step_all] using ht)
  | cons c cs ih =>
      intro S p hS t ht
      have h1 : ∀ s ∈ step q S c, SoundSt q D (p ++ [c]) s := sound_step hS
      have h2 := ih (step q S c) (p ++ [c]) h1 t (by simpa [step_all] using ht)
      simpa using h2

theorem sound_initial {q : List Char} {D : Int} (hD : 0 ≤ D) :
    ∀ s ∈ initial_states D, SoundSt q D [] s := by
  intro s hsmem
  rw [initial_states, Finset.mem_singleton] at hsmem
  subst hsmem
  refine ⟨hD, le_refl D, le_refl 0, by simp, by simp, ?_⟩
  simp [levenshtein_nil_left]

theorem sound_reachable {q : List Char} {D : Int} (hD : 0 ≤ D) (w : List Char) :
    ∀ t ∈ step_all q (initial_states D) w, SoundSt q D w t := by
  have := @sound_step_all q D w (initial_states D) [] (@sound_initial q D hD)
  simpa using this

theorem simplify_distinct_offsets {S : Finset (Int × Int)} {s t : Int × Int}
    (hs : s ∈ simplifyS S) (ht : t ∈ simplifyS S) (hne : s ≠ t) : s.1 ≠ t.1 := by
  intro heq
  have hsF := Finset.mem_filter.mp hs
  have htF := Finset.mem_filter.mp ht
  rcases lt_trichotomy s.2 t.2 with h | h | h
  · have himp : impliesS t s := by rw [impliesS_iff]; omega
    rcases hsF.2 t htF.1 with heq2 | hnimp
    · exact hne heq2.symm
    · exact hnimp himp
  · exact hne (Prod.ext heq h)
  · have himp : impliesS s t := by rw [impliesS_iff]; omega
    rcases htF.2 s hsF.1 with heq2 | hnimp
    · exact hne heq2
    · exact hnimp himp

theorem step_all_concat (q : List Char) (S : Finset (Int × Int)) (p : List Char)
    (c : Char) : step_all q S (p ++ [c]) = step q (step_all q S p) c := by
  simp [step_all, List.foldl_append]

/-- C7: every state set reachable from the initial state by `step` keeps at
most one state per offset, and hence has at most `2 * D + 1` states,
independently of the query length. -/
theorem nfa_state_set_bound (q : List Char) (D : Int) (w : List Char) (hD : 0 ≤ D) :
    (∀ s ∈ step_all q (initial_states D) w, ∀ t ∈ step_all q (initial_states D) w,
        s ≠ t → s.1 ≠ t.1) ∧
      (step_all q (initial_states D) w).card ≤ (2 * D + 1).toNat := by
  have hdist : ∀ s ∈ step_all q (initial_states D) w,
      ∀ t ∈ step_all q (initial_states D) w, s ≠ t → s.1 ≠ t.1 := by
    rcases List.eq_nil_or_concat w with rfl | ⟨p, c, rfl⟩
    · intro s hsmem t htmem hne
      rw [show step_all q (initial_states D) [] = initial_states D from rfl] at hsmem htmem
      rw [initial_states, Finset.mem_singleton] at hsmem htmem
      subst hsmem; subst htmem
      exact absurd rfl hne
    · rw [List.concat_eq_append, step_all_concat]
      intro s hsmem t htmem hne
      exact simplify_distinct_offsets hsmem htmem hne
  refine ⟨hdist, ?_⟩
  have hsound := @sound_reachable q D hD w
  have hmaps : ∀ s ∈ step_all q (initial_states D) w,
      s.1 ∈ Finset.Icc ((w.length : Int) - D) ((w.length : Int) + D) := by
    intro s hsmem
    obtain ⟨h1, h2, _, h4, h5, _⟩ := hsound s hsmem
    rw [Finset.mem_Icc]
    omega
  have hinj := Finset.card_le_card_of_injOn (fun (s : Int × Int) => s.1) hmaps (by
    intro s hsmem t htmem heq
    by_contra hne
    exact hdist s hsmem t htmem hne heq)
  rw [Int.card_Icc] at hinj
  have : ((w.length : Int) + D + 1 - ((w.length : Int) - D)) = 2 * D + 1 := by ring
  rw [this] at hinj
  exact hinj

theorem nfa_state_set_bound_witness :
    0 ≤ (1 : Int) ∧
      ((∀ s ∈ step_all ['a','b'] (initial_states 1) ['a'],
          ∀ t ∈ step_all ['a','b'] (initial_states 1) ['a'], s ≠ t → s.1 ≠ t.1) ∧
        (step_all ['a','b'] (initial_states 1) ['a']).card ≤ ((2 : Int) * 1 + 1).toNat) :=
  ⟨by decide, nfa_state_set_bound ['a','b'] 1 ['a'] (by decide)⟩

/-- C2: evaluation of levenshtein_using_nfa at inputs where it fails to
return the Levenshtein distance it promises: matching can reach an
accepting state whose count ignores the deletions of the unmatched query
suffix, so the reported count undershoots the true distance. -/
theorem levenshtein_using_nfa_bug :
    levenshtein_using_nfa ['t','e','h'] ['t','h','e'] 2 = 1 ∧
      levenshtein ['t','e','h'] ['t','h','e'] = 2 ∧
      levenshtein_using_nfa ['a'] ['a','b'] 1 = 0 ∧
      levenshtein ['a'] ['a','b'] = 1 := by
  refine ⟨by decide, by decide, by decide, by decide⟩

theorem transitions_nonneg {q : List Char} {s t : Int × Int} {c : Char}
    (hs : 0 ≤ s.2) (ht : t ∈ transitions q s c) : 0 ≤ t.2 := by
  rw [mem_transitions] at ht
  rcases ht with ⟨hd, (rfl | rfl)⟩ | ⟨k, hk, _, rfl⟩ <;> simp <;> omega

/-- Every member of a set of non-negative-budget states is subsumed by some
member that survives `simplify`. -/
theorem exists_cover_simplify : ∀ (N : Nat) (S : Finset (Int × Int)) (t : Int × Int),
    (∀ s ∈ S, 0 ≤ s.2) → t ∈ S → (S.filter (fun x => impliesS x t)).card ≤ N →
    ∃ m ∈ simplifyS S, impliesS m t := by
  intro N
  induction N with
  | zero =>
      intro S t hpos htS hcard
      exfalso
      have hmem : t ∈ S.filter (fun x => impliesS x t) :=
        Finset.mem_filter.mpr ⟨htS, impliesS_refl t (hpos t htS)⟩
      have := Finset.card_pos.mpr ⟨t, hmem⟩
      omega
  | succ N ih =>
      intro S t hpos htS hcard
      by_cases huseful : ∀ s2 ∈ S, s2 = t ∨ ¬ impliesS s2 t
      · exact ⟨t, Finset.mem_filter.mpr ⟨htS, huseful⟩, impliesS_refl t (hpos t htS)⟩
      · push_neg at huseful
        obtain ⟨t2, ht2S, ht2ne, ht2imp⟩ := huseful
        have hsub : S.filter (fun x => impliesS x t2) ⊆ S.filter (fun x => impliesS x t) := by
          intro x hx
          have hx2 := Finset.mem_filter.mp hx
          exact Finset.mem_filter.mpr
            ⟨hx2.1, impliesS_trans hx2.2 ht2imp (hpos t2 ht2S) (hpos t htS)⟩
        have htbig : t ∈ S.filter (fun x => impliesS x t) :=
          Finset.mem_filter.mpr ⟨htS, impliesS_refl t (hpos t htS)⟩
        have hnotmem : t ∉ S.filter (fun x => impliesS x t2) := by
          intro hmem
          have himp := (Finset.mem_filter.mp hmem).2
          exact ht2ne (impliesS_antisymm ht2imp himp (hpos t2 ht2S) (hpos t htS))
        have hlt : (S.filter (fun x => impliesS x t2)).card <
            (S.filter (fun x => impliesS x t)).card :=
          Finset.card_lt_card ((Finset.ssubset_iff_of_subset hsub).mpr ⟨t, htbig, hnotmem⟩)
        obtain ⟨m, hm, hmimp⟩ := ih S t2 hpos ht2S (by omega)
        exact ⟨m, hm, impliesS_trans hmimp ht2imp (hpos t2 ht2S) (hpos t htS)⟩

/-- Coverage invariant: every query prefix reachable within the budget from
the consumed string `p` is subsumed by some live state. -/
def CoverSt (q : List Char) (D : Int) (p : List Char) (S : Finset (Int × Int)) : Prop :=
  ∀ o : Nat, o ≤ q.length → (levenshtein p (q.take o) : Int) ≤ D →
    ∃ s ∈ S, impliesS s ((o : Int), D - levenshtein p (q.take o))

theorem cover_initial {q : List Char} {D : Int} (hD : 0 ≤ D) :
    CoverSt q D [] (initial_states D) := by
  intro o ho hle
  refine ⟨(0, D), by rw [initial_states]; exact Finset.mem_singleton_self _, ?_⟩
  have hlen : levenshtein [] (q.take o) = o := by
    rw [levenshtein_nil_left, List.length_take]
    omega
  rw [impliesS_iff, hlen]
  simp only []
  push_cast
  omega

theorem cover_step {q : List Char} {D : Int} {p : List Char} {S : Finset (Int × Int)}
    {c : Char} (hsound : ∀ s ∈ S, SoundSt q D p s)
    (hcover : CoverSt q D p S) : CoverSt q D (p ++ [c]) (step q S c) := by
  have hUpos : ∀ t ∈ S.biUnion (fun s => (transitions q s c).toFinset), 0 ≤ t.2 := by
    intro t ht
    rw [Finset.mem_biUnion] at ht
    obtain ⟨s, hsS, hts⟩ := ht
    rw [List.mem_toFinset] at hts
    exact transitions_nonneg (hsound s hsS).1 hts
  have hmid : ∀ (s : Int × Int), s ∈ S → ∀ t ∈ transitions q s c,
      ∃ m ∈ step q S c, impliesS m t := by
    intro s hsS t htrans
    have htU : t ∈ S.biUnion (fun s => (transitions q s c).toFinset) :=
      Finset.mem_biUnion.mpr ⟨s, hsS, List.mem_toFinset.mpr htrans⟩
    exact exists_cover_simplify _ _ t hUpos htU (le_refl _)
  intro o
  induction o using Nat.strong_induction_on with
  | _ o iho =>
      intro ho hle
      cases o with
      | zero =>
          have hlev0 : levenshtein (p ++ [c]) (q.take 0) = p.length + 1 := by
            rw [List.take_zero, levenshtein_nil_right, List.length_append]
            rfl
          have hlevp : levenshtein p (q.take 0) = p.length := by
            rw [List.take_zero, levenshtein_nil_right]
          rw [hlev0] at hle ⊢
          obtain ⟨s', hs'S, hs'imp⟩ := hcover 0 (by omega)
            (by rw [hlevp]; push_cast at hle ⊢; omega)
          rw [impliesS_iff, hlevp] at hs'imp
          obtain ⟨hd0, hdD, ho0, _, _, _⟩ := hsound s' hs'S
          push_cast at hle hs'imp
          have hd1pos : 0 < s'.2 := by omega
          obtain ⟨m, hmS, hmimp⟩ := hmid s' hs'S (s'.1, s'.2 - 1)
            (mem_transitions.mpr (Or.inl ⟨hd1pos, Or.inl rfl⟩))
          refine ⟨m, hmS, ?_⟩
          refine impliesS_trans hmimp ?_ (by simp; omega) (by simp; push_cast; omega)
          rw [impliesS_iff]
          push_cast
          omega
      | succ o'' =>
          have ho'' : o'' < q.length := by omega
          have hy : q[o'']? = some (q.get ⟨o'', ho''⟩) := by
            rw [List.getElem?_eq_getElem ho'']
            rfl
          have hrec := levenshtein_snoc_take q p c o'' (q.get ⟨o'', ho''⟩) hy
          rcases min_choice (levenshtein p (q.take (o'' + 1)) + 1)
              (min (levenshtein (p ++ [c]) (q.take o'') + 1)
                (levenshtein p (q.take o'') + chCost c (q.get ⟨o'', ho''⟩))) with hA | hBC
          · -- the character c is treated as an insertion
            rw [hA] at hrec
            have hAle : (levenshtein p (q.take (o'' + 1)) : Int) ≤ D - 1 := by
              rw [hrec] at hle
              push_cast at hle ⊢
              omega
            obtain ⟨s', hs'S, hs'imp⟩ := hcover (o'' + 1) ho (by omega)
            rw [impliesS_iff] at hs'imp
            obtain ⟨hd0, hdD, ho0, _, _, _⟩ := hsound s' hs'S
            push_cast at hs'imp
            have hd1pos : 0 < s'.2 := by omega
            obtain ⟨m, hmS, hmimp⟩ := hmid s' hs'S (s'.1, s'.2 - 1)
              (mem_transitions.mpr (Or.inl ⟨hd1pos, Or.inl rfl⟩))
            refine ⟨m, hmS, ?_⟩
            refine impliesS_trans hmimp ?_ (by simp; omega)
              (by simp; rw [hrec]; push_cast; omega)
            rw [impliesS_iff, hrec]
            push_cast
            omega
          · rcases min_choice (levenshtein (p ++ [c]) (q.take o'') + 1)
                (levenshtein p (q.take o'') + chCost c (q.get ⟨o'', ho''⟩)) with hB | hC
            · -- the next query character is treated as a deletion
              rw [hB] at hBC hrec
              rw [hBC] at hrec
              have hBle : (levenshtein (p ++ [c]) (q.take o'') : Int) ≤ D := by
                rw [hrec] at hle
                push_cast at hle ⊢
                omega
              obtain ⟨s, hsS, hsimp⟩ := iho o'' (by omega) (by omega) hBle
              refine ⟨s, hsS, ?_⟩
              rw [impliesS_iff] at hsimp ⊢
              rw [hrec]
              push_cast at hsimp ⊢
              omega
            · rw [hC] at hBC hrec
              rw [hBC] at hrec
              by_cases hcy : c = q.get ⟨o'', ho''⟩
              · -- the character c matches the next query character
                have hcost : chCost c (q.get ⟨o'', ho''⟩) = 0 := by simp [chCost, hcy]
                rw [hcost] at hrec
                have hCle : (levenshtein p (q.take o'') : Int) ≤ D := by
                  rw [hrec] at hle
                  push_cast at hle ⊢
                  omega
                obtain ⟨s', hs'S, hs'imp⟩ := hcover o'' (by omega) hCle
                rw [impliesS_iff] at hs'imp
                obtain ⟨hd0, hdD, ho0, _, _, _⟩ := hsound s' hs'S
                push_cast at hs'imp
                by_cases hloc : s'.1 ≤ (o'' : Int)
                · -- match transition deleting the skipped query characters
                  have hk : ((((o'' : Int) - s'.1).toNat : Int)) = (o'' : Int) - s'.1 := by
                    omega
                  have hget : pyStrGet q (s'.1 + (((o'' : Int) - s'.1).toNat : Int)) = some c := by
                    rw [pyStrGet_nonneg _ _ (by omega)]
                    have harg : (s'.1 + (((o'' : Int) - s'.1).toNat : Int)).toNat = o'' := by
                      omega
                    rw [harg, List.getElem?_eq_getElem ho'', hcy]
                    rfl
                  obtain ⟨m, hmS, hmimp⟩ := hmid s' hs'S _
                    (mem_transitions.mpr (Or.inr ⟨((o'' : Int) - s'.1).toNat,
                      by push_cast at ho'' ⊢; omega, hget, rfl⟩))
                  refine ⟨m, hmS, ?_⟩
                  refine impliesS_trans hmimp ?_ (by simp; omega)
                    (by simp; rw [hrec]; push_cast; omega)
                  rw [impliesS_iff, hrec]
                  push_cast
                  omega
                · -- the live state is ahead of the match position: insertion
                  have hd1pos : 0 < s'.2 := by omega
                  obtain ⟨m, hmS, hmimp⟩ := hmid s' hs'S (s'.1, s'.2 - 1)
                    (mem_transitions.mpr (Or.inl ⟨hd1pos, Or.inl rfl⟩))
                  refine ⟨m, hmS, ?_⟩
                  refine impliesS_trans hmimp ?_ (by simp; omega)
                    (by simp; rw [hrec]; push_cast; omega)
                  rw [impliesS_iff, hrec]
                  push_cast
                  omega
              · -- substitution of c for the next query character
                have hcost : chCost c (q.get ⟨o'', ho''⟩) = 1 := by
                  simp only [chCost, ite_eq_right_iff]
                  intro h
                  exact absurd h hcy
                rw [hcost] at hrec
                have hCle : (levenshtein p (q.take o'') : Int) ≤ D - 1 := by
                  rw [hrec] at hle
                  push_cast at hle ⊢
                  omega
                obtain ⟨s', hs'S, hs'imp⟩ := hcover o'' (by omega) (by omega)
                rw [impliesS_iff] at hs'imp
                obtain ⟨hd0, hdD, ho0, _, _, _⟩ := hsound s' hs'S
                push_cast at hs'imp
                have hd1pos : 0 < s'.2 := by omega
                obtain ⟨m, hmS, hmimp⟩ := hmid s' hs'S (s'.1 + 1, s'.2 - 1)
                  (mem_transitions.mpr (Or.inl ⟨hd1pos, Or.inr rfl⟩))
                refine ⟨m, hmS, ?_⟩
                refine impliesS_trans hmimp ?_ (by simp; omega)
                  (by simp; rw [hrec]; push_cast; omega)
                rw [impliesS_iff, hrec]
                push_cast
                omega

theorem cover_step_all {q : List Char} {D : Int} :
    ∀ (rem : List Char) (S : Finset (Int × Int)) (p : List Char),
      (∀ s ∈ S, SoundSt q D p s) → CoverSt q D p S →
      CoverSt q D (p ++ rem) (step_all q S rem) := by
  intro rem
  induction rem with
  | nil =>
      intro S p hS hC
      rw [List.append_nil]
      exact hC
  | cons c cs ih =>
      intro S p hS hC
      have h1 : ∀ s ∈ step q S c, SoundSt q D (p ++ [c]) s := sound_step hS
      have h2 := ih (step q S c) (p ++ [c]) h1 (cover_step hS hC)
      have h3 : p ++ c :: cs = (p ++ [c]) ++ cs := by simp
      rw [h3]
      exact h2

theorem cover_reachable {q : List Char} {D : Int} (hD : 0 ≤ D) (w : List Char) :
    CoverSt q D w (step_all q (initial_states D) w) := by
  have h := @cover_step_all q D w (initial_states D) [] (@sound_initial q D hD)
    (@cover_initial q D hD)
  simpa using h

theorem accept_best_exists {q : List Char} {D : Int} {S : Finset (Int × Int)}
    (h : ∃ s ∈ S, acceptS q s) :
    ∃ s ∈ S, acceptS q s ∧ accept_best q D S = D - s.2 := by
  obtain ⟨s0, hs0, hacc0⟩ := h
  have hne : (S.filter (fun s => acceptS q s)).Nonempty :=
    ⟨s0, Finset.mem_filter.mpr ⟨hs0, hacc0⟩⟩
  unfold accept_best
  rw [dif_pos hne]
  have hmem := Finset.min'_mem ((S.filter (fun s => acceptS q s)).image (fun s => D - s.2))
    (hne.image _)
  rw [Finset.mem_image] at hmem
  obtain ⟨s, hsF, hs_eq⟩ := hmem
  have hsF2 := Finset.mem_filter.mp hsF
  exact ⟨s, hsF2.1, hsF2.2, hs_eq.symm⟩

theorem accept_best_le {q : List Char} {D : Int} {S : Finset (Int × Int)}
    {s : Int × Int} (hs : s ∈ S) (hacc : acceptS q s) :
    accept_best q D S ≤ D - s.2 := by
  have hne : (S.filter (fun t => acceptS q t)).Nonempty :=
    ⟨s, Finset.mem_filter.mpr ⟨hs, hacc⟩⟩
  unfold accept_best
  rw [dif_pos hne]
  exact Finset.min'_le _ _
    (Finset.mem_image_of_mem _ (Finset.mem_filter.mpr ⟨hs, hacc⟩))

theorem accept_best_no_accept {q : List Char} {D : Int} {S : Finset (Int × Int)}
    (h : ∀ s ∈ S, ¬ acceptS q s) : accept_best q D S = -1 := by
  have hne : ¬ (S.filter (fun s => acceptS q s)).Nonempty := by
    rintro ⟨s, hsF⟩
    have := Finset.mem_filter.mp hsF
    exact h s this.1 this.2
  unfold accept_best
  rw [dif_neg hne]

theorem accept_best_nonneg {q : List Char} {D : Int} {S : Finset (Int × Int)}
    (hub : ∀ s ∈ S, s.2 ≤ D) (h : ∃ s ∈ S, acceptS q s) :
    0 ≤ accept_best q D S := by
  obtain ⟨s0, hs0, hacc0⟩ := h
  have hne : (S.filter (fun s => acceptS q s)).Nonempty :=
    ⟨s0, Finset.mem_filter.mpr ⟨hs0, hacc0⟩⟩
  unfold accept_best
  rw [dif_pos hne]
  apply Finset.le_min'
  intro y hy
  rw [Finset.mem_image] at hy
  obtain ⟨s, hsF, rfl⟩ := hy
  have := hub s (Finset.mem_filter.mp hsF).1
  omega

theorem sound_accept_dist_le {q w : List Char} {D : Int} {s : Int × Int}
    (hsound : SoundSt q D w s) (hacc : acceptS q s) :
    (levenshtein w q : Int) ≤ D := by
  obtain ⟨h1, h2, h3, h4, h5, h6⟩ := hsound
  rw [acceptS] at hacc
  by_cases hm : s.1.toNat ≤ q.length
  · have h := levenshtein_le_take_add q w s.1.toNat hm
    push_cast at h
    omega
  · rw [List.take_of_length_le (by omega)] at h6
    omega

theorem nfa_accepts_iff (w q : List Char) (D : Int) (hD : 0 ≤ D) :
    levenshtein_using_nfa w q D ≠ -1 ↔ (levenshtein w q : Int) ≤ D := by
  rw [levenshtein_using_nfa]
  constructor
  · intro hne
    by_cases hacc : ∃ s ∈ step_all q (initial_states D) w, acceptS q s
    · obtain ⟨s, hsS, hs⟩ := hacc
      exact sound_accept_dist_le (sound_reachable hD w s hsS) hs
    · push_neg at hacc
      exact absurd (accept_best_no_accept hacc) hne
  · intro hle
    have hcov := cover_reachable hD w q.length (le_refl _)
      (by rw [List.take_length]; exact hle)
    rw [List.take_length] at hcov
    obtain ⟨s, hsS, hsimp⟩ := hcov
    have hsound := sound_reachable hD w s hsS
    obtain ⟨h1, h2, h3, h4, h5, h6⟩ := hsound
    rw [impliesS_iff] at hsimp
    have hacc : acceptS q s := by
      rw [acceptS]
      simp only [] at hsimp
      omega
    have hge := accept_best_nonneg (fun t htS => (sound_reachable hD w t htS).2.1)
      ⟨s, hsS, hacc⟩
    omega

theorem simplifyS_subset (S : Finset (Int × Int)) : simplifyS S ⊆ S := by
  rw [simplifyS]
  exact Finset.filter_subset _ _

theorem cover_accept {q : List Char} {m t : Int × Int} (himp : impliesS m t)
    (ht : 0 ≤ t.2) (hacc : acceptS q t) : acceptS q m ∧ D - m.2 ≤ D - t.2 := by
  rw [impliesS_iff] at himp
  rw [acceptS] at hacc ⊢
  constructor
  · omega
  · omega

theorem accept_best_simplify {q : List Char} {D : Int} {S : Finset (Int × Int)}
    (hpos : ∀ t ∈ S, 0 ≤ t.2) :
    accept_best q D (simplifyS S) = accept_best q D S := by
  by_cases hacc : ∃ t ∈ S, acceptS q t
  · obtain ⟨t0, ht0S, ht0acc, ht0eq⟩ := @accept_best_exists q D S hacc
    obtain ⟨m, hmS, hmimp⟩ := exists_cover_simplify (S.filter (fun s => impliesS s t0)).card
      S t0 hpos ht0S (le_refl _)
    obtain ⟨hmacc, hmle⟩ := @cover_accept D q m t0 hmimp (hpos t0 ht0S) ht0acc
    have h1 : accept_best q D (simplifyS S) ≤ accept_best q D S := by
      rw [ht0eq]
      exact le_trans (accept_best_le hmS hmacc) hmle
    obtain ⟨m0, hm0S, hm0acc, hm0eq⟩ := @accept_best_exists q D (simplifyS S)
      ⟨m, hmS, hmacc⟩
    have h2 : accept_best q D S ≤ accept_best q D (simplifyS S) := by
      rw [hm0eq]
      exact accept_best_le (simplifyS_subset S hm0S) hm0acc
    omega
  · push_neg at hacc
    rw [accept_best_no_accept hacc, accept_best_no_accept]
    intro s hs
    exact hacc s (simplifyS_subset S hs)

/-- C4: along any input history from the initial states, the subsumption
filter in simplify never changes accept_best: both on the union of
transition targets produced inside a step (the set the code actually
simplifies) and on the reachable set itself, accept_best of the simplified
set equals accept_best of the unsimplified set. -/
theorem nfa_simplify_preserves_accept_best (q w : List Char) (D : Int) (c : Char)
    (hD : 0 ≤ D) :
    accept_best q D (simplifyS ((step_all q (initial_states D) w).biUnion
        (fun s => (transitions q s c).toFinset))) =
      accept_best q D ((step_all q (initial_states D) w).biUnion
        (fun s => (transitions q s c).toFinset)) ∧
    accept_best q D (simplifyS (step_all q (initial_states D) w)) =
      accept_best q D (step_all q (initial_states D) w) := by
  constructor
  · apply accept_best_simplify
    intro t ht
    rw [Finset.mem_biUnion] at ht
    obtain ⟨s, hsS, hts⟩ := ht
    rw [List.mem_toFinset] at hts
    exact transitions_nonneg (sound_reachable hD w s hsS).1 hts
  · apply accept_best_simplify
    intro t ht
    exact (sound_reachable hD w t ht).1

theorem nfa_simplify_preserves_accept_best_witness :
    (0 : Int) ≤ 1 ∧
      (accept_best (['a', 'b']) 1 (simplifyS ((step_all (['a', 'b'])
          (initial_states 1) (['a'])).biUnion
          (fun s => (transitions (['a', 'b']) s 'b').toFinset))) =
        accept_best (['a', 'b']) 1 ((step_all (['a', 'b'])
          (initial_states 1) (['a'])).biUnion
          (fun s => (transitions (['a', 'b']) s 'b').toFinset)) ∧
      accept_best (['a', 'b']) 1 (simplifyS (step_all (['a', 'b'])
          (initial_states 1) (['a']))) =
        accept_best (['a', 'b']) 1 (step_all (['a', 'b'])
          (initial_states 1) (['a']))) :=
  ⟨by decide, nfa_simplify_preserves_accept_best (['a', 'b']) (['a']) 1 'b' (by decide)⟩

/-- Stable insertion of one pair into a list sorted ascending by first
component: the new element goes after the existing elements with a strictly
smaller key and before those with an equal or larger key. -/
def insertByFst (a : Int × List Char) : List (Int × List Char) → List (Int × List Char)
  | [] => [a]
  | b :: rest => if b.1 < a.1 then b :: insertByFst a rest else a :: b :: rest

/-- Python's list.sort with key x[0]: a stable ascending sort by the first
component.  list.sort is stable, and all stable ascending sorts of a list
by the same key coincide, so insertion sort models it exactly. -/
def pySortFst : List (Int × List Char) → List (Int × List Char)
  | [] => []
  | a :: rest => insertByFst a (pySortFst rest)

mutual
/-- LevenshteinNFA._helper_intersection of src/levenshtein.py: prune when
the state set is empty, record the word at word nodes accepted with a best
edit count, and recurse into each child stepping the NFA by the edge key. -/
def helperInter (q : List Char) (D : Int) :
    Finset (Int × Int) → TrieNode → List Char → List (Int × List Char)
  | S, TrieNode.mk _ f b, soFar =>
      if S = ∅ then []
      else
        (if b = true ∧ accept_best q D S ≠ -1
          then [(accept_best q D S, soFar)] else []) ++
        helperInterF q D S f soFar
/-- The children loop of _helper_intersection over the insertion-ordered
children map. -/
def helperInterF (q : List Char) (D : Int) :
    Finset (Int × Int) → TrieForest → List Char → List (Int × List Char)
  | _, TrieForest.nil, _ => []
  | S, TrieForest.cons c n f, soFar =>
      helperInter q D (step q S c) n (soFar ++ [n.letterD]) ++
      helperInterF q D S f soFar
end

/-- LevenshteinNFA.intersection_with_trie_dfs of src/levenshtein.py: DFS
from the root with the initial states, then sort by edit count. -/
def intersection_with_trie_dfs (q : List Char) (D : Int) (t : Trie) :
    List (Int × List Char) :=
  pySortFst (helperInter q D (initial_states D) t.root [])

/-- LevenshteinNFA.get_similar_words of src/levenshtein.py.  When N is -1 or
at least the result length all words are returned; otherwise the list
comprehension over range(N) yields the first N entries for N >= 0 and the
empty list for negative N. -/
def LevenshteinNFA.get_similar_words (q : List Char) (D : Int) (t : Trie) (N : Int) :
    List (List Char) :=
  if N = -1 ∨ ((intersection_with_trie_dfs q D t).length : Int) ≤ N then
    (intersection_with_trie_dfs q D t).map (fun x => x.2)
  else ((intersection_with_trie_dfs q D t).take N.toNat).map (fun x => x.2)

theorem mem_insertByFst (a b : Int × List Char) : ∀ l : List (Int × List Char),
    b ∈ insertByFst a l ↔ b = a ∨ b ∈ l
  | [] => by simp [insertByFst]
  | c :: rest => by
      simp only [insertByFst]
      by_cases h : c.1 < a.1
      · rw [if_pos h]
        simp only [List.mem_cons, mem_insertByFst a b rest]
        tauto
      · rw [if_neg h]
        simp only [List.mem_cons]

theorem mem_pySortFst (b : Int × List Char) : ∀ l : List (Int × List Char),
    b ∈ pySortFst l ↔ b ∈ l
  | [] => by simp [pySortFst]
  | a :: rest => by
      simp only [pySortFst, mem_insertByFst, List.mem_cons, mem_pySortFst b rest]

theorem sorted_insertByFst (a : Int × List Char) : ∀ l : List (Int × List Char),
    List.Pairwise (fun (x y : Int × List Char) => x.1 ≤ y.1) l →
    List.Pairwise (fun (x y : Int × List Char) => x.1 ≤ y.1) (insertByFst a l)
  | [], _ => by simp [insertByFst]
  | b :: rest, h => by
      obtain ⟨hb, hrest⟩ := List.pairwise_cons.mp h
      simp only [insertByFst]
      by_cases hba : b.1 < a.1
      · rw [if_pos hba]
        refine List.pairwise_cons.mpr ⟨?_, sorted_insertByFst a rest hrest⟩
        intro x hx
        rcases (mem_insertByFst a x rest).mp hx with rfl | hx2
        · omega
        · exact hb x hx2
      · rw [if_neg hba]
        refine List.pairwise_cons.mpr ⟨?_, h⟩
        intro x hx
        rcases List.mem_cons.mp hx with rfl | hx2
        · omega
        · have := hb x hx2
          omega

theorem sorted_pySortFst : ∀ l : List (Int × List Char),
    List.Pairwise (fun (x y : Int × List Char) => x.1 ≤ y.1) (pySortFst l)
  | [] => by simp [pySortFst]
  | a :: rest => sorted_insertByFst a (pySortFst rest) (sorted_pySortFst rest)

/-- C9: the intersection result is sorted ascending by edit count, and
get_similar_words returns all of its words when N is -1 or at least the
result length, the first N of them when 0 <= N < length, but the empty
list for any other negative N (the code tests N == -1, not N < 0). -/
theorem nfa_get_similar_words_spec (q : List Char) (D : Int) (t : Trie) (N : Int) :
    List.Pairwise (fun (x y : Int × List Char) => x.1 ≤ y.1)
      (intersection_with_trie_dfs q D t) ∧
    ((N = -1 ∨ ((intersection_with_trie_dfs q D t).length : Int) ≤ N) →
      LevenshteinNFA.get_similar_words q D t N =
        (intersection_with_trie_dfs q D t).map (fun x => x.2)) ∧
    (0 ≤ N → (N : Int) < ((intersection_with_trie_dfs q D t).length : Int) →
      LevenshteinNFA.get_similar_words q D t N =
        ((intersection_with_trie_dfs q D t).take N.toNat).map (fun x => x.2)) ∧
    (N < -1 → LevenshteinNFA.get_similar_words q D t N = []) := by
  refine ⟨sorted_pySortFst _, ?_, ?_, ?_⟩
  · intro h
    rw [LevenshteinNFA.get_similar_words, if_pos h]
  · intro h1 h2
    rw [LevenshteinNFA.get_similar_words,
      if_neg (by push_neg; exact ⟨by omega, by omega⟩)]
  · intro h
    rw [LevenshteinNFA.get_similar_words,
      if_neg (by push_neg; exact ⟨by omega, by omega⟩)]
    rw [Int.toNat_of_nonpos (by omega), List.take_zero, List.map_nil]

theorem nfa_get_similar_words_spec_witness :
    LevenshteinNFA.get_similar_words (['a']) 0 (buildTrie [['a']]) (-1) = [['a']] := by
  rw [(nfa_get_similar_words_spec (['a']) 0 (buildTrie [['a']]) (-1)).2.1 (Or.inl rfl)]
  decide

theorem nfa_get_similar_words_counterexample :
    LevenshteinNFA.get_similar_words (['a']) 0 (buildTrie [['a']]) (-2) = [] ∧
      (intersection_with_trie_dfs (['a']) 0 (buildTrie [['a']])).map (fun x => x.2) =
        [['a']] := by decide

theorem step_empty (q : List Char) (c : Char) :
    step q (∅ : Finset (Int × Int)) c = ∅ := by
  rw [step, Finset.biUnion_empty, simplifyS, Finset.filter_empty]

theorem step_all_empty (q : List Char) : ∀ l : List Char,
    step_all q (∅ : Finset (Int × Int)) l = ∅
  | [] => rfl
  | c :: cs => by
      show step_all q (step q ∅ c) cs = ∅
      rw [step_empty]
      exact step_all_empty q cs

theorem accept_best_empty (q : List Char) (D : Int) :
    accept_best q D (∅ : Finset (Int × Int)) = -1 :=
  accept_best_no_accept (by simp)

theorem step_all_append (q : List Char) (S : Finset (Int × Int)) (l1 l2 : List Char) :
    step_all q S (l1 ++ l2) = step_all q (step_all q S l1) l2 := by
  rw [step_all, step_all, step_all, List.foldl_append]

theorem step_all_snoc (q : List Char) (S : Finset (Int × Int)) (p : List Char) (c : Char) :
    step_all q S (p ++ [c]) = step q (step_all q S p) c := by
  rw [step_all_append]
  rfl

mutual
theorem mem_helperInterN (q : List Char) (D : Int) (S0 : Finset (Int × Int)) :
    ∀ (n : TrieNode), goodN n = true → ∀ (p : List Char) (e : Int) (w : List Char),
      ((e, w) ∈ helperInter q D (step_all q S0 p) n p ↔
        ∃ suf, w = p ++ suf ∧ isWordInN n suf = true ∧
          e = accept_best q D (step_all q S0 w) ∧ e ≠ -1)
  | TrieNode.mk l f b, hgood, p, e, w => by
      have hgf : goodF f = true := by simpa [goodN] using hgood
      rw [show helperInter q D (step_all q S0 p) (TrieNode.mk l f b) p =
          (if step_all q S0 p = ∅ then []
           else (if b = true ∧ accept_best q D (step_all q S0 p) ≠ -1
              then [(accept_best q D (step_all q S0 p), p)] else []) ++
             helperInterF q D (step_all q S0 p) f p) from rfl]
      by_cases hS : step_all q S0 p = ∅
      · rw [if_pos hS]
        simp only [List.not_mem_nil, false_iff]
        rintro ⟨suf, rfl, hword, herr, hne⟩
        apply hne
        rw [herr, step_all_append, hS, step_all_empty, accept_best_empty]
      · rw [if_neg hS, List.mem_append]
        constructor
        · rintro (hmem | hmem)
          · by_cases hcond : b = true ∧ accept_best q D (step_all q S0 p) ≠ -1
            · rw [if_pos hcond] at hmem
              simp only [List.mem_singleton, Prod.mk.injEq] at hmem
              obtain ⟨he, hw⟩ := hmem
              exact ⟨[], by rw [hw, List.append_nil], hcond.1,
                by rw [hw]; exact he, by rw [he]; exact hcond.2⟩
            · rw [if_neg hcond] at hmem
              exact absurd hmem (List.not_mem_nil _)
          · obtain ⟨c, n', suf, hfind, hw, hword, herr, hne⟩ :=
              (mem_helperInterF q D S0 f hgf p e w).mp hmem
            refine ⟨c :: suf, hw, ?_, herr, hne⟩
            rw [@isWordInN_cons_some (TrieNode.mk l f b) n' c suf hfind]
            exact hword
        · rintro ⟨suf, hw, hword, herr, hne⟩
          cases suf with
          | nil =>
              left
              rw [List.append_nil] at hw
              subst hw
              have hb : b = true := hword
              rw [if_pos ⟨hb, by rw [← herr]; exact hne⟩]
              simp [herr]
          | cons c suf' =>
              right
              apply (mem_helperInterF q D S0 f hgf p e w).mpr
              cases hfind : findChild f c with
              | none =>
                  rw [@isWordInN_cons_none (TrieNode.mk l f b) c suf' hfind] at hword
                  cases hword
              | some n' =>
                  refine ⟨c, n', suf', hfind, hw, ?_, herr, hne⟩
                  rw [@isWordInN_cons_some (TrieNode.mk l f b) n' c suf' hfind] at hword
                  exact hword
theorem mem_helperInterF (q : List Char) (D : Int) (S0 : Finset (Int × Int)) :
    ∀ (f : TrieForest), goodF f = true → ∀ (p : List Char) (e : Int) (w : List Char),
      ((e, w) ∈ helperInterF q D (step_all q S0 p) f p ↔
        ∃ c n' suf, findChild f c = some n' ∧ w = p ++ c :: suf ∧
          isWordInN n' suf = true ∧ e = accept_best q D (step_all q S0 w) ∧ e ≠ -1)
  | TrieForest.nil, _, p, e, w => by
      rw [show helperInterF q D (step_all q S0 p) TrieForest.nil p = [] from rfl]
      simp [findChild]
  | TrieForest.cons c0 n0 f, hgood, p, e, w => by
      simp only [goodF, Bool.and_eq_true, Bool.not_eq_true', beq_iff_eq] at hgood
      obtain ⟨⟨⟨⟨hup, hlet⟩, hkey⟩, hgn⟩, hgf⟩ := hgood
      have hletD : n0.letterD = c0 := by rw [TrieNode.letterD, hlet]; rfl
      rw [show helperInterF q D (step_all q S0 p) (TrieForest.cons c0 n0 f) p =
          helperInter q D (step q (step_all q S0 p) c0) n0 (p ++ [n0.letterD]) ++
            helperInterF q D (step_all q S0 p) f p from rfl]
      rw [hletD, List.mem_append, ← step_all_snoc q S0 p c0]
      rw [mem_helperInterN q D S0 n0 hgn (p ++ [c0]) e w]
      rw [mem_helperInterF q D S0 f hgf p e w]
      constructor
      · rintro (⟨suf, hw, hword, herr, hne⟩ | ⟨c, n', suf, hfind, hw, hword, herr, hne⟩)
        · exact ⟨c0, n0, suf, by simp [findChild], by simpa using hw, hword, herr, hne⟩
        · have hne0 : ¬ (c0 = c) := by
            intro hcc
            subst hcc
            rw [hasKeyT_of_findChild f c0 n' hfind] at hkey
            cases hkey
          refine ⟨c, n', suf, ?_, hw, hword, herr, hne⟩
          rw [show findChild (TrieForest.cons c0 n0 f) c =
              (if c0 = c then some n0 else findChild f c) from rfl, if_neg hne0]
          exact hfind
      · rintro ⟨c, n', suf, hfind, hw, hword, herr, hne⟩
        rw [show findChild (TrieForest.cons c0 n0 f) c =
            (if c0 = c then some n0 else findChild f c) from rfl] at hfind
        by_cases hcc : c0 = c
        · subst hcc
          rw [if_pos rfl] at hfind
          injection hfind with hfind
          subst hfind
          left
          exact ⟨suf, by simpa using hw, hword, herr, hne⟩
        · rw [if_neg hcc] at hfind
          right
          exact ⟨c, n', suf, hfind, hw, hword, herr, hne⟩
end

/-- Characterization of the sorted DFS intersection on tries built by
inserts: its entries are exactly the trie words whose accept_best over the
stepped automaton is a non-(-1) edit count. -/
theorem mem_intersection (q : List Char) (D : Int) (t : Trie)
    (hgood : goodN t.root = true) (e : Int) (w : List Char) :
    ((e, w) ∈ intersection_with_trie_dfs q D t ↔
      isWordIn t w = true ∧ e = accept_best q D (step_all q (initial_states D) w) ∧
        e ≠ -1) := by
  rw [intersection_with_trie_dfs, mem_pySortFst]
  have h := mem_helperInterN q D (initial_states D) t.root hgood [] e w
  rw [show step_all q (initial_states D) [] = initial_states D from rfl] at h
  rw [h]
  constructor
  · rintro ⟨suf, rfl, hword, herr, hne⟩
    exact ⟨hword, herr, hne⟩
  · rintro ⟨hword, herr, hne⟩
    exact ⟨w, rfl, hword, herr, hne⟩

/-- C3 amended: over a vocabulary whose first word (the BK-tree root) is
nonempty and whose words consist of ASCII characters none of which is an
uppercase letter — on such words Python's str.lower, modeled by lowerStr,
is the identity, and on the ASCII range the model is exact — the unlimited
automaton-based get_similar_words over the trie and the BK-tree
get_similar_words return the same set of words for every query and every
non-negative tolerance.  Empty words among the later inserts are no-ops in
both structures, so they need no exclusion. -/
theorem nfa_bk_same_words (q w0 : List Char) (ws : List (List Char)) (D : Int)
    (w : List Char) (hD : 0 ≤ D)
    (hw0 : w0 ≠ [])
    (hchars : ∀ v ∈ w0 :: ws, ∀ c ∈ v, c.toNat < 128 ∧ ¬ isUp c) :
    (w ∈ LevenshteinNFA.get_similar_words q D (buildTrie (w0 :: ws)) (-1) ↔
      w ∈ (buildBK w0 ws).get_similar_words q D) := by
  have hlc : ∀ v ∈ w0 :: ws, lowerStr v = v := fun v hv =>
    lowerStr_eq_self v (fun c hc => (hchars v hv c hc).2)
  have hgood : goodN (buildTrie (w0 :: ws)).root = true := goodN_buildTrie _
  have hnfa : w ∈ LevenshteinNFA.get_similar_words q D (buildTrie (w0 :: ws)) (-1) ↔
      (isWordIn (buildTrie (w0 :: ws)) w = true ∧ (levenshtein w q : Int) ≤ D) := by
    rw [LevenshteinNFA.get_similar_words, if_pos (Or.inl rfl), List.mem_map]
    constructor
    · rintro ⟨⟨e, w'⟩, hmem, rfl⟩
      obtain ⟨hword, herr, hne'⟩ := (mem_intersection q D _ hgood e w').mp hmem
      refine ⟨hword, ?_⟩
      apply (nfa_accepts_iff w' q D hD).mp
      rw [levenshtein_using_nfa, ← herr]
      exact hne'
    · rintro ⟨hword, hle⟩
      have hacc : accept_best q D (step_all q (initial_states D) w) ≠ -1 :=
        (nfa_accepts_iff w q D hD).mpr hle
      exact ⟨(accept_best q D (step_all q (initial_states D) w), w),
        (mem_intersection q D _ hgood _ w).mpr ⟨hword, rfl, hacc⟩, rfl⟩
  obtain ⟨hinv, hwords⟩ := buildBK_fold w0 ws
  have hbk : w ∈ (buildBK w0 ws).get_similar_words q D ↔
      ((w = w0 ∨ (w ∈ ws ∧ w ≠ [])) ∧ (levenshtein w q : Int) ≤ D) := by
    rw [BKTree.get_similar_words, mem_similarNode _ q D w hinv, hwords w]
  rw [hnfa, hbk, isWordIn_buildTrie]
  constructor
  · rintro ⟨⟨v, hv, hvne, hwv⟩, hle⟩
    rw [hlc v hv] at hwv
    subst hwv
    rcases List.mem_cons.mp hv with rfl | hv'
    · exact ⟨Or.inl rfl, hle⟩
    · exact ⟨Or.inr ⟨hv', hvne⟩, hle⟩
  · rintro ⟨hv, hle⟩
    refine ⟨?_, hle⟩
    rcases hv with rfl | ⟨hv', hne'⟩
    · exact ⟨w, by simp, hw0, (hlc w (by simp)).symm⟩
    · exact ⟨w, by simp [hv'], hne', (hlc w (by simp [hv'])).symm⟩

theorem nfa_bk_same_words_witness :
    (['a'] ∈ LevenshteinNFA.get_similar_words (['a']) 0 (buildTrie [['a']]) (-1) ↔
      ['a'] ∈ (buildBK ['a'] []).get_similar_words (['a']) 0) :=
  nfa_bk_same_words ['a'] ['a'] [] 0 ['a'] (by decide) (by decide)
    (by intro v hv; simp at hv; subst hv; intro c hc; simp at hc; subst hc; decide)

theorem nfa_bk_counterexample :
    (['c', 'a', 't'] ∈ LevenshteinNFA.get_similar_words (['c', 'a', 't']) 0
      (buildTrie [['C', 'a', 't']]) (-1)) ∧
    ¬ (['c', 'a', 't'] ∈ (buildBK ['C', 'a', 't'] []).get_similar_words
      (['c', 'a', 't']) 0) := by decide
end Autocorrect
